import Mathlib

/-!
# langdet: n-gram profile construction (`langdet/analyzing.go`)

A shallow embedding of the profile builder of the language detector and the
properties of it that are stated in the specification.

Conventions of the embedding.

* A Go `string` is its byte sequence: `GoString := List Nat`, every byte a
  number below 256.  Byte offsets and lengths are natural numbers.
* A Go `int` that may be negative (`maxSampleSize`, `gramDepth`, the rune
  offset given to `CalByteOffsetToRunOffset`, map values) is an `Int`; an
  `int` has 64 bits and holds the values `MinInt .. MaxInt`.  The sum
  `gramDepth+1` and the counter `i` of the loop of `analyseToken` can leave
  that range and wrap around (`wrapInt`); the other sums and differences of
  the source stay inside it (lengths, offsets and counts are bounded by the
  length of the text), so they are exact.
* A Go `map[string]int` is an association list with pairwise distinct keys,
  in the order in which the keys were first stored.  The language leaves the
  enumeration order of a map unspecified, so statements about
  `CreateRankLookupMap` quantify over every list with distinct keys.
* A function that returns no value is `none`: a run-time failure (slice
  bounds out of range), or a loop whose condition can never fail.
-/

namespace Langdet

/-! ## Strings and maps -/

/-- A Go string, as its sequence of bytes. -/
abbrev GoString := List Nat

/-- A Go `map[string]int`, as an association list with distinct keys. -/
abbrev GoMap := List (GoString × Int)

/-- The entry stored under `k`, if any. -/
def mapFind : GoMap → GoString → Option Int
  | [], _ => none
  | (k', v) :: m, k => if k' = k then some v else mapFind m k

/-- The expression `m[k]`: the stored value, or the zero value `0`. -/
def mapGet (m : GoMap) (k : GoString) : Int :=
  match mapFind m k with
  | some v => v
  | none => 0

/-- The assignment `m[k] = v`. -/
def mapStore : GoMap → GoString → Int → GoMap
  | [], k, v => [(k, v)]
  | (k', v') :: m, k, v => if k' = k then (k', v) :: m else (k', v') :: mapStore m k v

/-- The statement `m[k] += 1`. -/
def mapIncr (m : GoMap) (k : GoString) : GoMap :=
  mapStore m k (mapGet m k + 1)

/-- The keys of a map, in enumeration order. -/
def mapKeys (m : GoMap) : List GoString := m.map Prod.fst

/-! ## The rank builder -/

/-- The struct `Token`, a gram and its number of occurrences.  It is declared
outside `analyzing.go`; the fields are those of the literal
`Token{Key: k, Occurrence: v}` in `CreateRankLookupMap`. -/
structure Token where
  Key : GoString
  Occurrence : Int
deriving DecidableEq, Repr, Inhabited

/-- Modelled from the spec: the type `ByOccurrence` and its `Less` method are
declared outside `analyzing.go`; the specification says the list is sorted
ascending by occurrence count.  This is the order `sort.Sort` sorts by. -/
def ByOccurrence (a b : Token) : Prop := a.Occurrence ≤ b.Occurrence

instance : DecidableRel ByOccurrence := fun a b => Int.decLe a.Occurrence b.Occurrence

/-- The first loop of `CreateRankLookupMap`: one `Token` per map entry, in
enumeration order. -/
def tokensOf (input : GoMap) : List Token :=
  input.map (fun kv => { Key := kv.1, Occurrence := kv.2 })

/-- The call `sort.Sort(ByOccurrence(tokens))`.  Every list that is sorted by
occurrence is left as it is, so letting the enumeration order of the input
range over all orders yields every outcome a sort may produce on ties. -/
def sortTokens (tokens : List Token) : List Token :=
  tokens.insertionSort ByOccurrence

/-- The indices visited by
`for i := length - 1; i >= 0 && i > length-locMaxL; i--`, in order. -/
def rankIndices (length : Nat) (locMaxL : Int) : List Nat :=
  (List.range length).reverse.takeWhile (fun i => decide ((i : Int) > (length : Int) - locMaxL))

/-- The function `CreateRankLookupMap`, with the package variable
`maxSampleSize` as a parameter. -/
def CreateRankLookupMap (maxSampleSize : Int) (input : GoMap) : GoMap :=
  let tokens := sortTokens (tokensOf input)
  let length := tokens.length
  let locMaxL : Int := if maxSampleSize < 0 then (length : Int) else maxSampleSize
  (rankIndices length locMaxL).foldl
    (fun result i => mapStore result (tokens.getD i default).Key ((length : Int) - (i : Int))) []

/-! ## The package `unicode/utf8` of the Go library

The three library functions used by `analyzing.go`.  A rune is a natural
number.  The bit operations that assemble a rune from the payload bits of its
bytes (`rune(s0&mask3)<<12 | rune(s1&maskx)<<6 | rune(s2&maskx)`) are written
arithmetically: the fields do not overlap, so `|` is `+`, a mask is a
remainder and a shift is a multiplication. -/

/-- The constant `utf8.RuneError`, U+FFFD. -/
def RuneError : Nat := 0xFFFD

/-- The constant `utf8.RuneSelf`: bytes below it are characters on their own. -/
def RuneSelf : Nat := 0x80

/-- The constant `utf8.UTFMax`. -/
def UTFMax : Nat := 4

/-- The tables `first` and `acceptRanges` for a leading byte of a multi-byte
sequence: the length of the sequence and the accepted range of its second
byte; `none` for a byte that cannot lead a multi-byte sequence. -/
def first (b : Nat) : Option (Nat × Nat × Nat) :=
  if 0xC2 ≤ b ∧ b ≤ 0xDF then some (2, 0x80, 0xBF)
  else if b = 0xE0 then some (3, 0xA0, 0xBF)
  else if 0xE1 ≤ b ∧ b ≤ 0xEC then some (3, 0x80, 0xBF)
  else if b = 0xED then some (3, 0x80, 0x9F)
  else if 0xEE ≤ b ∧ b ≤ 0xEF then some (3, 0x80, 0xBF)
  else if b = 0xF0 then some (4, 0x90, 0xBF)
  else if 0xF1 ≤ b ∧ b ≤ 0xF3 then some (4, 0x80, 0xBF)
  else if b = 0xF4 then some (4, 0x80, 0x8F)
  else none

/-- The function `utf8.DecodeRuneInString`: the first rune of `s` and its width
in bytes; `(RuneError, 1)` for an invalid or short encoding, `(RuneError, 0)`
for the empty string. -/
def DecodeRuneInString : GoString → Nat × Nat
  | [] => (RuneError, 0)
  | s0 :: t =>
    if s0 < RuneSelf then (s0, 1) else
    match first s0 with
    | none => (RuneError, 1)
    | some (sz, lo, hi) =>
      if t.length + 1 < sz then (RuneError, 1) else
      match t with
      | [] => (RuneError, 1)
      | s1 :: t1 =>
        if s1 < lo ∨ hi < s1 then (RuneError, 1) else
        if sz ≤ 2 then (s0 % 32 * 64 + s1 % 64, 2) else
        match t1 with
        | [] => (RuneError, 1)
        | s2 :: t2 =>
          if s2 < 0x80 ∨ 0xBF < s2 then (RuneError, 1) else
          if sz ≤ 3 then (s0 % 16 * 4096 + s1 % 64 * 64 + s2 % 64, 3) else
          match t2 with
          | [] => (RuneError, 1)
          | s3 :: _ =>
            if s3 < 0x80 ∨ 0xBF < s3 then (RuneError, 1) else
            (s0 % 8 * 262144 + s1 % 64 * 4096 + s2 % 64 * 64 + s3 % 64, 4)

/-- The loop of `utf8.RuneCountInString`, which advances by the width of the
rune at the current position (one byte for an invalid or short encoding). -/
def runeCountLoop : Nat → GoString → Nat
  | 0, _ => 0
  | _ + 1, [] => 0
  | fuel + 1, c :: t => runeCountLoop fuel ((c :: t).drop (DecodeRuneInString (c :: t)).2) + 1

/-- The function `utf8.RuneCountInString`. -/
def RuneCountInString (s : GoString) : Nat := runeCountLoop s.length s

/-- The function `utf8.RuneStart`: the byte is not a continuation byte. -/
def RuneStart (b : Nat) : Bool := !(decide (0x80 ≤ b) && decide (b ≤ 0xBF))

/-- The backwards scan of `utf8.DecodeLastRuneInString`
(`for start--; start >= lim; start--`, then `if start < 0 { start = 0 }`):
the last position in `[lim, end-2]` holding a rune start, else `lim - 1`, and
`0` where that would be negative. -/
def lastRuneStart (s : GoString) (lim : Nat) : Nat :=
  match ((List.range' lim (s.length - 1 - lim)).reverse).find?
      (fun j => RuneStart (s.getD j 0)) with
  | some j => j
  | none => lim - 1

/-- The function `utf8.DecodeLastRuneInString`: the last rune of `s` and its
width in bytes; `(RuneError, 1)` for an invalid encoding. -/
def DecodeLastRuneInString (s : GoString) : Nat × Nat :=
  if s.length = 0 then (RuneError, 0) else
  let r := s.getD (s.length - 1) 0
  if r < RuneSelf then (r, 1) else
  let start := lastRuneStart s (s.length - UTFMax)
  let d := DecodeRuneInString (s.drop start)
  if start + d.2 ≠ s.length then (RuneError, 1) else d

/-! ## The package `strings` of the Go library -/

/-- The function `strings.HasPrefix`. -/
def HasPrefix : GoString → GoString → Bool
  | _, [] => true
  | [], _ :: _ => false
  | c :: s, p :: ps => decide (c = p) && HasPrefix s ps

/-- The scan of `strings.Replace(s, old, new, -1)` for a non-empty `old`: the
occurrences are replaced from left to right and do not overlap. -/
def replaceLoop (old new : GoString) : Nat → GoString → GoString
  | 0, s => s
  | _ + 1, [] => []
  | fuel + 1, c :: t =>
    if HasPrefix (c :: t) old then new ++ replaceLoop old new fuel ((c :: t).drop old.length)
    else c :: replaceLoop old new fuel t

/-- The call `strings.Replace(s, old, new, -1)`, `old` not empty. -/
def Replace (s old new : GoString) : GoString := replaceLoop old new s.length s

/-- The call `strings.Split(s, sep)` for a separator of one byte. -/
def Split (sep : Nat) : GoString → List GoString
  | [] => [[]]
  | c :: t =>
    if c = sep then [] :: Split sep t
    else match Split sep t with
      | [] => [[c]]
      | h :: r => (c :: h) :: r

/-! ## The text pipeline of `analyzing.go` -/

/-- The string `" "`. -/
def space : GoString := [0x20]

/-- The replacements made by `cleanText`, in the order of its statements: the
pairs `(old, new)` of its 26 calls `text = strings.Replace(text, old, new, -1)`. -/
def cleanSteps : List (GoString × GoString) :=
  [ ([0x0A], space), ([0x2C], space), ([0x23], space), ([0x2F], space), ([0x5C], space),
    ([0x2E], space), ([0x21], space), ([0x3F], space), ([0x3A], space), ([0x3B], space),
    ([0x2D], space), ([0x27], space), ([0x22], space), ([0x5F], space), ([0x2A], space),
    ([0x31], []), ([0x32], []), ([0x33], []), ([0x34], []), ([0x35], []),
    ([0x36], []), ([0x37], []), ([0x38], []), ([0x39], []), ([0x30], []),
    ([0x20, 0x20], space) ]

/-- The function `cleanText`. -/
def cleanText (text : GoString) : GoString :=
  cleanSteps.foldl (fun t step => Replace t step.1 step.2) text

/-- The function `CalByteOffsetToRunOffset`.  The loop
`for i := offset; i < len(in); i++` returns the first `i` it accepts. -/
def CalByteOffsetToRunOffset (s : GoString) (offset : Int) : Nat :=
  if offset < 0 ∨ (RuneCountInString s : Int) ≤ offset then s.length
  else if offset = 0 then 0
  else
    match (List.range' offset.toNat (s.length - offset.toNat)).find? (fun i =>
        decide ((DecodeLastRuneInString (s.take i)).1 ≠ RuneError) &&
        decide ((RuneCountInString (s.take i) : Int) = offset)) with
    | some i => i
    | none => s.length

/-- The loop of `generateNthGrams` over the rune positions `p`; `text` is the
padded token.  `some` at a `break` or at the end of the loop, `none` when the
slice expression `text[p1:pn]` fails (`p1 > pn`; `pn <= len(text)` holds
after the test before it). -/
def gramLoop (text : GoString) (n : Int) : List Nat → GoMap → Option GoMap
  | [], resultMap => some resultMap
  | p :: ps, resultMap =>
    let p1 := CalByteOffsetToRunOffset text p
    let pn := CalByteOffsetToRunOffset text ((p : Int) + n)
    if p1 = pn ∨ pn > text.length ∨ p1 ≥ text.length then some resultMap
    else if pn < p1 then none
    else
      let currentToken := (text.take pn).drop p1
      if currentToken = space then gramLoop text n ps resultMap
      else gramLoop text n ps (mapIncr resultMap currentToken)

/-- The padded token of `generateNthGrams`. -/
def padToken (text : GoString) : GoString :=
  let padding := if CalByteOffsetToRunOffset text 1 ≠ 1 then [] else space
  padding ++ text ++ padding

/-- The function `generateNthGrams`. -/
def generateNthGrams (resultMap : GoMap) (text : GoString) (n : Int) : Option GoMap :=
  let text := padToken text
  let upperBound : Int := (RuneCountInString text : Int) - (n - 1)
  gramLoop text n (List.range upperBound.toNat) resultMap

/-- The loop `for i := 1; i <= gramDepth+1; i++` of `analyseToken`, over the
values of `i`. -/
def depthLoop (token : GoString) : List Nat → GoMap → Option GoMap
  | [], resultMap => some resultMap
  | i :: is, resultMap =>
    match generateNthGrams resultMap token i with
    | none => none
    | some m => depthLoop token is m

/-- The largest value of a 64-bit `int`, `math.MaxInt64`. -/
def MaxInt : Int := 9223372036854775807

/-- The least value of a 64-bit `int`, `math.MinInt64`. -/
def MinInt : Int := -9223372036854775808

/-- The value that 64-bit `int` arithmetic gives for the exact result `x`:
the result wraps around, in two's complement. -/
def wrapInt (x : Int) : Int :=
  (x + 9223372036854775808) % 18446744073709551616 - 9223372036854775808

/-- The function `analyseToken`.  The bound `gramDepth+1` of the loop
`for i := 1; i <= gramDepth+1; i++` is an `int` sum and wraps around.  Where
the bound is `MaxInt` the condition `i <= gramDepth+1` holds for every `int`,
`i++` wraps around to the negative values and the loop never ends by its
condition: the function returns no map.  Otherwise `i` takes the values from
1 to the bound (none where the bound is below 1). -/
def analyseToken (resultMap : GoMap) (token : GoString) (gramDepth : Int) : Option GoMap :=
  if token.length = 0 then some resultMap
  else if wrapInt (gramDepth + 1) = MaxInt then none
  else depthLoop token (List.range' 1 (wrapInt (gramDepth + 1)).toNat) resultMap

/-- The loop `for _, token := range tokens` of `CreateOccurenceMap`. -/
def tokenLoop (gramDepth : Int) : List GoString → GoMap → Option GoMap
  | [], result => some result
  | token :: tokens, result =>
    match analyseToken result token gramDepth with
    | none => none
    | some m => tokenLoop gramDepth tokens m

/-- The function `CreateOccurenceMap`. -/
def CreateOccurenceMap (text : GoString) (gramDepth : Int) : Option GoMap :=
  tokenLoop gramDepth (Split 0x20 (cleanText text)) []

/-- The struct `Language`.  It is declared outside `analyzing.go`; the fields
are those of the literal `Language{Name: name, Profile: ranked}` in
`AnalyzeWithNDepth`. -/
structure Language where
  Name : GoString
  Profile : GoMap
deriving DecidableEq, Repr

/-- The function `AnalyzeWithNDepth`, with `maxSampleSize` as a parameter. -/
def AnalyzeWithNDepth (maxSampleSize : Int) (text name : GoString) (nDepth : Int) :
    Option Language :=
  match CreateOccurenceMap text nDepth with
  | none => none
  | some theMap => some { Name := name, Profile := CreateRankLookupMap maxSampleSize theMap }

/-! ## Writing strings -/

/-- The function `utf8.EncodeRune`, for a Unicode scalar value. -/
def EncodeRune (r : Nat) : GoString :=
  if r < 0x80 then [r]
  else if r < 0x800 then [0xC0 + r / 64, 0x80 + r % 64]
  else if r < 0x10000 then [0xE0 + r / 4096, 0x80 + r / 64 % 64, 0x80 + r % 64]
  else [0xF0 + r / 262144, 0x80 + r / 4096 % 64, 0x80 + r / 64 % 64, 0x80 + r % 64]

/-- The Go string literal with the given text. -/
def str (s : String) : GoString := s.toList.flatMap (fun c => EncodeRune c.toNat)

/-! ## Notions used in the statements -/

/-- The locally adjusted cap of `CreateRankLookupMap`. -/
def locMax (maxSampleSize : Int) (length : Nat) : Int :=
  if maxSampleSize < 0 then (length : Int) else maxSampleSize

/-! ## Runes of a string -/

/-- The successive runes of a string as byte chunks, in the steps of the loop
of `utf8.RuneCountInString`: a chunk is a whole encoded rune, or one byte of
an invalid or short encoding. -/
def runesLoop : Nat → GoString → List GoString
  | 0, _ => []
  | _ + 1, [] => []
  | fuel + 1, c :: t =>
    (c :: t).take (DecodeRuneInString (c :: t)).2 ::
      runesLoop fuel ((c :: t).drop (DecodeRuneInString (c :: t)).2)

/-- The runes of a string as byte chunks. -/
def runes (s : GoString) : List GoString := runesLoop s.length s

/-- The loop of `utf8.ValidString`: no position of the scan holds an invalid
or short encoding (which decodes to `RuneError` with width 1). -/
def validLoop : Nat → GoString → Bool
  | 0, _ => true
  | _ + 1, [] => true
  | fuel + 1, c :: t =>
    if (DecodeRuneInString (c :: t)).1 = RuneError ∧ (DecodeRuneInString (c :: t)).2 = 1 then false
    else validLoop fuel ((c :: t).drop (DecodeRuneInString (c :: t)).2)

/-- The function `utf8.ValidString`. -/
def ValidString (s : GoString) : Bool := validLoop s.length s

/-- The number of bytes occupied by the first `k` runes of `s`. -/
def runeOffset (s : GoString) (k : Nat) : Nat := ((runes s).take k).flatten.length

/-- A byte chunk that is one whole, validly encoded rune. -/
def Whole (v : GoString) : Prop :=
  v ≠ [] ∧ (DecodeRuneInString v).2 = v.length ∧
    ¬ ((DecodeRuneInString v).1 = RuneError ∧ v.length = 1)

/-- The ways in which `DecodeRuneInString` reads a non-empty string: an ASCII
byte, an invalid leading byte, a sequence cut short by the end of the string,
a sequence with a byte outside its accepted range, or a whole sequence of two,
three or four bytes. -/
inductive Shape : GoString → Prop
  | ascii (a : Nat) (t : GoString) : a < 0x80 → Shape (a :: t)
  | invalid (a : Nat) (t : GoString) : ¬ a < 0x80 → first a = none → Shape (a :: t)
  | short1 (a sz lo hi : Nat) : ¬ a < 0x80 → first a = some (sz, lo, hi) → Shape [a]
  | bad2 (a b sz lo hi : Nat) (t : GoString) : ¬ a < 0x80 → first a = some (sz, lo, hi) →
      (b < lo ∨ hi < b) → Shape (a :: b :: t)
  | two (a b lo hi : Nat) (t : GoString) : ¬ a < 0x80 → first a = some (2, lo, hi) →
      ¬ (b < lo ∨ hi < b) → Shape (a :: b :: t)
  | short2 (a b sz lo hi : Nat) : ¬ a < 0x80 → first a = some (sz, lo, hi) → 3 ≤ sz →
      ¬ (b < lo ∨ hi < b) → Shape [a, b]
  | bad3 (a b c sz lo hi : Nat) (t : GoString) : ¬ a < 0x80 → first a = some (sz, lo, hi) →
      3 ≤ sz → ¬ (b < lo ∨ hi < b) → (c < 0x80 ∨ 0xBF < c) → Shape (a :: b :: c :: t)
  | three (a b c lo hi : Nat) (t : GoString) : ¬ a < 0x80 → first a = some (3, lo, hi) →
      ¬ (b < lo ∨ hi < b) → ¬ (c < 0x80 ∨ 0xBF < c) → Shape (a :: b :: c :: t)
  | short3 (a b c lo hi : Nat) : ¬ a < 0x80 → first a = some (4, lo, hi) →
      ¬ (b < lo ∨ hi < b) → ¬ (c < 0x80 ∨ 0xBF < c) → Shape [a, b, c]
  | bad4 (a b c d lo hi : Nat) (t : GoString) : ¬ a < 0x80 → first a = some (4, lo, hi) →
      ¬ (b < lo ∨ hi < b) → ¬ (c < 0x80 ∨ 0xBF < c) → (d < 0x80 ∨ 0xBF < d) →
      Shape (a :: b :: c :: d :: t)
  | four (a b c d lo hi : Nat) (t : GoString) : ¬ a < 0x80 → first a = some (4, lo, hi) →
      ¬ (b < lo ∨ hi < b) → ¬ (c < 0x80 ∨ 0xBF < c) → ¬ (d < 0x80 ∨ 0xBF < d) →
      Shape (a :: b :: c :: d :: t)

/-- The condition under which the loop of `generateNthGrams` stops. -/
def gramBreak (text : GoString) (p : Nat) (n : Int) : Prop :=
  CalByteOffsetToRunOffset text p = CalByteOffsetToRunOffset text ((p : Int) + n) ∨
  CalByteOffsetToRunOffset text ((p : Int) + n) > text.length ∨
  CalByteOffsetToRunOffset text p ≥ text.length

/-- The slice `text[p1:pn]` of `generateNthGrams`. -/
def gramSlice (text : GoString) (p : Nat) (n : Int) : GoString :=
  (text.take (CalByteOffsetToRunOffset text ((p : Int) + n))).drop
    (CalByteOffsetToRunOffset text p)

/-- The string `s2` comes from `s1` by editing single ASCII bytes: a byte is
kept, or an ASCII byte is replaced by an ASCII byte, or an ASCII byte is
deleted. -/
inductive AsciiEdit : GoString → GoString → Prop
  | done : AsciiEdit [] []
  | keep (x : Nat) (s1 s2 : GoString) : AsciiEdit s1 s2 → AsciiEdit (x :: s1) (x :: s2)
  | subst (x y : Nat) (s1 s2 : GoString) : x < 0x80 → y < 0x80 → AsciiEdit s1 s2 →
      AsciiEdit (x :: s1) (y :: s2)
  | del (x : Nat) (s1 s2 : GoString) : x < 0x80 → AsciiEdit s1 s2 → AsciiEdit (x :: s1) s2

/-- The number of positions at which `g` occurs in `s` as a contiguous
substring: the positions `i` with `s[i : i+len(g)] == g`. -/
def occurrences (g s : GoString) : Nat :=
  ((List.range (s.length + 1 - g.length)).filter
    (fun i => decide ((s.take (i + g.length)).drop i = g))).length

/-- The count stated for a gram `g`: for a gram of 1 to `gramDepth + 1`
characters other than the single space, the occurrences of `g` in the
non-empty tokens, each with a space on either side; 0 otherwise. -/
def gramCount (tokens : List GoString) (gramDepth : Int) (g : GoString) : Nat :=
  if 1 ≤ RuneCountInString g ∧ (RuneCountInString g : Int) ≤ gramDepth + 1 ∧ g ≠ space then
    ((tokens.filter (fun t => decide (t ≠ []))).map
      (fun t => occurrences g (space ++ t ++ space))).sum
  else 0

/-- The 15 characters that `cleanText` replaces by a space: newline and
`, # / \ . ! ? : ; - ' " _ *`. -/
def punct : List Nat :=
  [0x0A, 0x2C, 0x23, 0x2F, 0x5C, 0x2E, 0x21, 0x3F, 0x3A, 0x3B, 0x2D, 0x27, 0x22, 0x5F, 0x2A]

/-- The ASCII digits, in the order in which `cleanText` removes them. -/
def digits : List Nat := [0x31, 0x32, 0x33, 0x34, 0x35, 0x36, 0x37, 0x38, 0x39, 0x30]

/-- The text with every listed character replaced by a space. -/
def toSpaces (text : GoString) : GoString := text.map (fun c => if c ∈ punct then 0x20 else c)

/-- The text without its ASCII digits. -/
def dropDigits (text : GoString) : GoString := text.filter (fun c => decide (c ∉ digits))

/-- The last statement of `cleanText`:
`strings.Replace(text, "  ", " ", -1)`. -/
def collapse (text : GoString) : GoString := Replace text [0x20, 0x20] space

/-- The text has two adjacent spaces. -/
def adjacentSpaces : GoString → Bool
  | a :: b :: t => (decide (a = 0x20) && decide (b = 0x20)) || adjacentSpaces (b :: t)
  | _ => false

/-- The function `Analyze`; the constant `DEFAULT_NDEPTH`, declared outside
`analyzing.go`, and `maxSampleSize` are parameters. -/
def Analyze (DEFAULT_NDEPTH maxSampleSize : Int) (text name : GoString) : Option Language :=
  AnalyzeWithNDepth maxSampleSize text name DEFAULT_NDEPTH

/-- The sum of the counts of a map. -/
def mapTotal (m : GoMap) : Int := (m.map Prod.snd).sum

/-! # Properties -/

/-! ## Facts about maps -/

theorem mapStore_of_not_mem (m : GoMap) (k : GoString) (v : Int) (h : k ∉ mapKeys m) :
    mapStore m k v = m ++ [(k, v)] := by
  induction m with
  | nil => rfl
  | cons e m ih =>
    obtain ⟨k', v'⟩ := e
    simp only [mapKeys, List.map_cons, List.mem_cons, not_or] at h
    have hne : ¬ k' = k := fun hk => h.1 hk.symm
    simp only [mapStore, hne, if_false, List.cons_append]
    rw [ih h.2]

theorem foldl_mapStore_eq (kvs : List (GoString × Int)) :
    ∀ acc : GoMap, (mapKeys acc ++ mapKeys kvs).Nodup →
      kvs.foldl (fun m kv => mapStore m kv.1 kv.2) acc = acc ++ kvs := by
  induction kvs with
  | nil => intro acc _; simp
  | cons e kvs ih =>
    intro acc h
    have hk : e.1 ∉ mapKeys acc := by
      intro hmem
      have := List.nodup_append.1 h
      exact this.2.2 hmem (by simp [mapKeys])
    simp only [List.foldl_cons]
    rw [mapStore_of_not_mem _ _ _ hk, ih]
    · simp
    · have : mapKeys (acc ++ [(e.1, e.2)]) ++ mapKeys kvs = mapKeys acc ++ mapKeys (e :: kvs) := by
        simp [mapKeys]
      rw [this]; exact h

theorem mapFind_eq_some_iff (m : GoMap) (h : (mapKeys m).Nodup) (k : GoString) (v : Int) :
    mapFind m k = some v ↔ (k, v) ∈ m := by
  induction m with
  | nil => simp [mapFind]
  | cons e m ih =>
    obtain ⟨k', v'⟩ := e
    simp only [mapKeys, List.map_cons, List.nodup_cons] at h
    by_cases hk : k' = k
    · subst hk
      simp only [mapFind, if_true, List.mem_cons, Prod.mk.injEq, true_and, Option.some.injEq]
      constructor
      · intro hv; exact Or.inl hv.symm
      · rintro (hv | hmem)
        · exact hv.symm
        · exact absurd (List.mem_map_of_mem Prod.fst hmem) h.1
    · simp only [mapFind, hk, if_false, List.mem_cons, Prod.mk.injEq]
      rw [ih h.2]
      constructor
      · intro hmem; exact Or.inr hmem
      · rintro (⟨hk', _⟩ | hmem)
        · exact absurd hk'.symm hk
        · exact hmem

theorem mapFind_isSome_iff (m : GoMap) (k : GoString) :
    (∃ v, mapFind m k = some v) ↔ k ∈ mapKeys m := by
  induction m with
  | nil => simp [mapFind, mapKeys]
  | cons e m ih =>
    obtain ⟨k', v'⟩ := e
    by_cases hk : k' = k
    · simp [mapFind, mapKeys, hk]
    · have hk' : ¬ k = k' := fun h => hk h.symm
      simp only [mapFind, hk, if_false, mapKeys, List.map_cons, List.mem_cons, hk', false_or]
      exact ih

/-! ## Facts about the rank builder -/

theorem mem_takeWhile_gt (t : Int) (L i : Nat) :
    i ∈ (List.range L).reverse.takeWhile (fun j : Nat => decide ((j : Int) > t)) ↔
      i < L ∧ (i : Int) > t := by
  induction L with
  | zero => simp
  | succ L ih =>
    rw [List.range_succ, List.reverse_append, List.reverse_singleton, List.singleton_append,
      List.takeWhile_cons]
    by_cases hL : (L : Int) > t
    · simp only [hL, decide_True, if_true, List.mem_cons, ih]
      constructor
      · rintro (rfl | ⟨h1, h2⟩)
        · exact ⟨Nat.lt_succ_self _, hL⟩
        · exact ⟨Nat.lt_succ_of_lt h1, h2⟩
      · rintro ⟨h1, h2⟩
        rcases Nat.lt_succ_iff_lt_or_eq.1 h1 with h | h
        · exact Or.inr ⟨h, h2⟩
        · exact Or.inl h
    · simp only [hL, decide_False, Bool.false_eq_true, if_false, List.not_mem_nil, false_iff,
        not_and]
      intro h1 h2
      have : (i : Int) ≤ L := by exact_mod_cast Nat.lt_succ_iff.1 h1
      omega

theorem mem_rankIndices (length : Nat) (locMaxL : Int) (i : Nat) :
    i ∈ rankIndices length locMaxL ↔ i < length ∧ (i : Int) > (length : Int) - locMaxL :=
  mem_takeWhile_gt _ _ _

theorem rankIndices_nodup (length : Nat) (locMaxL : Int) : (rankIndices length locMaxL).Nodup :=
  ((List.takeWhile_sublist _).nodup (List.nodup_reverse.2 (List.nodup_range length)))

theorem sortTokens_perm (input : GoMap) : (sortTokens (tokensOf input)).Perm (tokensOf input) :=
  List.perm_insertionSort _ _

theorem sortTokens_sorted (input : GoMap) :
    (sortTokens (tokensOf input)).Sorted ByOccurrence := by
  haveI : IsTotal Token ByOccurrence := ⟨fun a b => Int.le_total a.Occurrence b.Occurrence⟩
  haveI : IsTrans Token ByOccurrence := ⟨fun a b c h1 h2 => Int.le_trans h1 h2⟩
  exact List.sorted_insertionSort _ _

theorem tokensOf_keys (input : GoMap) : (tokensOf input).map Token.Key = mapKeys input := by
  simp [tokensOf, mapKeys, List.map_map, Function.comp_def]

theorem sortTokens_keys_nodup (input : GoMap) (h : (mapKeys input).Nodup) :
    ((sortTokens (tokensOf input)).map Token.Key).Nodup := by
  have hp := (sortTokens_perm input).map Token.Key
  rw [tokensOf_keys] at hp
  exact hp.nodup_iff.2 h

/-- With distinct keys the rank map lists, from the last sorted token
downwards, the visited tokens with their distance from the end. -/
theorem CreateRankLookupMap_eq (maxSampleSize : Int) (input : GoMap)
    (h : (mapKeys input).Nodup) :
    CreateRankLookupMap maxSampleSize input =
      (rankIndices input.length (locMax maxSampleSize input.length)).map (fun i =>
        (((sortTokens (tokensOf input)).getD i default).Key, (input.length : Int) - (i : Int))) := by
  have hlen : (sortTokens (tokensOf input)).length = input.length := by
    simp [sortTokens, tokensOf, List.length_insertionSort]
  unfold CreateRankLookupMap
  simp only [hlen]
  refine Eq.trans (List.foldl_map (fun i : Nat =>
      (((sortTokens (tokensOf input)).getD i default).Key, (input.length : Int) - (i : Int)))
      (fun (m : GoMap) (kv : GoString × Int) => mapStore m kv.1 kv.2) _ _).symm ?_
  rw [foldl_mapStore_eq]
  · simp [locMax]
  · simp only [mapKeys, List.map_nil, List.nil_append, List.map_map]
    have hnd := sortTokens_keys_nodup input h
    refine (List.nodup_map_iff_inj_on (rankIndices_nodup _ _)).2 ?_
    intro i hi j hj hij
    simp only [Function.comp] at hij
    have hi' := ((mem_rankIndices _ _ _).1 hi).1
    have hj' := ((mem_rankIndices _ _ _).1 hj).1
    rw [← hlen] at hi' hj'
    rw [List.getD_eq_getElem _ _ hi', List.getD_eq_getElem _ _ hj'] at hij
    have hi2 : i < ((sortTokens (tokensOf input)).map Token.Key).length := by simpa using hi'
    have hj2 : j < ((sortTokens (tokensOf input)).map Token.Key).length := by simpa using hj'
    have h1 : ((sortTokens (tokensOf input)).map Token.Key)[i] =
        ((sortTokens (tokensOf input)).map Token.Key)[j] := by
      simpa using hij
    exact (List.Nodup.getElem_inj_iff hnd).1 h1

theorem mem_of_mapFind (m : GoMap) (k : GoString) (v : Int) (h : mapFind m k = some v) :
    (k, v) ∈ m := by
  induction m with
  | nil => simp [mapFind] at h
  | cons e m ih =>
    obtain ⟨k', v'⟩ := e
    by_cases hk : k' = k
    · simp only [mapFind, hk, if_true, Option.some.injEq] at h
      simp [hk, h]
    · simp only [mapFind, hk, if_false] at h
      exact List.mem_cons_of_mem _ (ih h)

theorem mapGet_of_mem (m : GoMap) (h : (mapKeys m).Nodup) (k : GoString) (v : Int)
    (hmem : (k, v) ∈ m) : mapGet m k = v := by
  have := (mapFind_eq_some_iff m h k v).2 hmem
  simp [mapGet, this]

/-- A sorted token carries the occurrence count its gram has in the input. -/
theorem token_occurrence (input : GoMap) (h : (mapKeys input).Nodup) (t : Token)
    (ht : t ∈ sortTokens (tokensOf input)) : mapGet input t.Key = t.Occurrence := by
  have h1 : t ∈ tokensOf input := (sortTokens_perm input).mem_iff.1 ht
  simp only [tokensOf, List.mem_map] at h1
  obtain ⟨kv, hkv, rfl⟩ := h1
  exact mapGet_of_mem input h kv.1 kv.2 hkv

theorem sortTokens_length (input : GoMap) :
    (sortTokens (tokensOf input)).length = input.length := by
  simp [sortTokens, tokensOf, List.length_insertionSort]

/-- An entry of the rank map is a visited index of the sorted token list. -/
theorem rank_entry (maxSampleSize : Int) (input : GoMap) (h : (mapKeys input).Nodup)
    (g : GoString) (r : Int) (hr : mapFind (CreateRankLookupMap maxSampleSize input) g = some r) :
    ∃ i, ∃ hi : i < (sortTokens (tokensOf input)).length,
      (i : Int) > (input.length : Int) - locMax maxSampleSize input.length ∧
      ((sortTokens (tokensOf input))[i]).Key = g ∧ r = (input.length : Int) - (i : Int) := by
  have hmem := mem_of_mapFind _ _ _ hr
  rw [CreateRankLookupMap_eq maxSampleSize input h, List.mem_map] at hmem
  obtain ⟨i, hi, heq⟩ := hmem
  have hi2 := (mem_rankIndices _ _ _).1 hi
  have hlt : i < (sortTokens (tokensOf input)).length := by
    rw [sortTokens_length]; exact hi2.1
  refine ⟨i, hlt, hi2.2, ?_, ?_⟩
  · rw [List.getD_eq_getElem _ _ hlt] at heq
    exact (Prod.mk.inj heq).1
  · exact (Prod.mk.inj heq).2.symm

/-- Every visited index yields an entry of the rank map. -/
theorem rank_of_index (maxSampleSize : Int) (input : GoMap) (h : (mapKeys input).Nodup)
    (i : Nat) (hi : i < (sortTokens (tokensOf input)).length)
    (hv : (i : Int) > (input.length : Int) - locMax maxSampleSize input.length) :
    mapFind (CreateRankLookupMap maxSampleSize input) ((sortTokens (tokensOf input))[i]).Key =
      some ((input.length : Int) - (i : Int)) := by
  have hnd : (mapKeys (CreateRankLookupMap maxSampleSize input)).Nodup := by
    rw [CreateRankLookupMap_eq maxSampleSize input h]
    simp only [mapKeys, List.map_map]
    have hnd := sortTokens_keys_nodup input h
    refine (List.nodup_map_iff_inj_on (rankIndices_nodup _ _)).2 ?_
    intro a ha b hb hab
    simp only [Function.comp] at hab
    have ha' := ((mem_rankIndices _ _ _).1 ha).1
    have hb' := ((mem_rankIndices _ _ _).1 hb).1
    rw [← sortTokens_length] at ha' hb'
    rw [List.getD_eq_getElem _ _ ha', List.getD_eq_getElem _ _ hb'] at hab
    have ha2 : a < ((sortTokens (tokensOf input)).map Token.Key).length := by simpa using ha'
    have hb2 : b < ((sortTokens (tokensOf input)).map Token.Key).length := by simpa using hb'
    have h1 : ((sortTokens (tokensOf input)).map Token.Key)[a] =
        ((sortTokens (tokensOf input)).map Token.Key)[b] := by
      simpa using hab
    exact (List.Nodup.getElem_inj_iff hnd).1 h1
  rw [mapFind_eq_some_iff _ hnd, CreateRankLookupMap_eq maxSampleSize input h, List.mem_map]
  refine ⟨i, (mem_rankIndices _ _ _).2 ⟨by rw [← sortTokens_length]; exact hi, hv⟩, ?_⟩
  rw [List.getD_eq_getElem _ _ hi]

/-- Grams with a larger count stand later in the sorted token list. -/
theorem index_lt_of_occurrence_lt (input : GoMap) (i j : Nat)
    (hi : i < (sortTokens (tokensOf input)).length)
    (hj : j < (sortTokens (tokensOf input)).length)
    (h : ((sortTokens (tokensOf input))[i]).Occurrence <
      ((sortTokens (tokensOf input))[j]).Occurrence) : i < j := by
  by_contra hij
  have hji : j ≤ i := Nat.le_of_not_lt hij
  rcases Nat.lt_or_eq_of_le hji with hlt | heq
  · have hs := sortTokens_sorted input
    have := (List.pairwise_iff_getElem.1 hs) j i hj hi hlt
    simp only [ByOccurrence] at this
    omega
  · subst heq
    omega

/-- The general statement of rank monotonicity. -/
theorem rank_lt_of_occurrence_gt (maxSampleSize : Int) (input : GoMap)
    (hnd : (mapKeys input).Nodup) (g1 g2 : GoString) (r1 r2 : Int)
    (h1 : mapFind (CreateRankLookupMap maxSampleSize input) g1 = some r1)
    (h2 : mapFind (CreateRankLookupMap maxSampleSize input) g2 = some r2)
    (hocc : mapGet input g1 > mapGet input g2) : r1 < r2 := by
  obtain ⟨i1, hi1, _, hk1, hr1⟩ := rank_entry maxSampleSize input hnd g1 r1 h1
  obtain ⟨i2, hi2, _, hk2, hr2⟩ := rank_entry maxSampleSize input hnd g2 r2 h2
  have ho1 := token_occurrence input hnd _ (List.getElem_mem hi1)
  have ho2 := token_occurrence input hnd _ (List.getElem_mem hi2)
  rw [hk1] at ho1
  rw [hk2] at ho2
  have hlt : i2 < i1 := by
    apply index_lt_of_occurrence_lt input i2 i1 hi2 hi1
    rw [← ho1, ← ho2]; exact hocc
  omega

/-- A cap above the number of grams keeps every gram. -/
theorem rank_of_key_of_cap_gt (maxSampleSize : Int) (input : GoMap)
    (hnd : (mapKeys input).Nodup) (hcap : (input.length : Int) < maxSampleSize)
    (g : GoString) (hg : g ∈ mapKeys input) :
    ∃ r, mapFind (CreateRankLookupMap maxSampleSize input) g = some r := by
  have hp := (sortTokens_perm input).map Token.Key
  rw [tokensOf_keys] at hp
  have hg2 : g ∈ (sortTokens (tokensOf input)).map Token.Key := hp.mem_iff.2 hg
  obtain ⟨t, ht, rfl⟩ := List.mem_map.1 hg2
  obtain ⟨i, hi, rfl⟩ := List.getElem_of_mem ht
  refine ⟨_, rank_of_index maxSampleSize input hnd i hi ?_⟩
  have : locMax maxSampleSize input.length = maxSampleSize := by
    unfold locMax
    have : ¬ maxSampleSize < 0 := by omega
    simp [this]
  rw [this]
  omega

theorem length_takeWhile_gt (t : Int) (L : Nat) :
    ((List.range L).reverse.takeWhile (fun j : Nat => decide ((j : Int) > t))).length =
      L - (t + 1).toNat := by
  induction L with
  | zero => simp
  | succ L ih =>
    rw [List.range_succ, List.reverse_append, List.reverse_singleton, List.singleton_append,
      List.takeWhile_cons]
    by_cases hL : (L : Int) > t
    · simp only [hL, decide_True, if_true, List.length_cons, ih]
      omega
    · simp only [hL, decide_False, Bool.false_eq_true, if_false, List.length_nil]
      omega

/-- The number of entries of the rank map: one less than the adjusted cap,
and at most the number of grams. -/
theorem rank_length (maxSampleSize : Int) (input : GoMap) (h : (mapKeys input).Nodup) :
    (CreateRankLookupMap maxSampleSize input).length =
      min input.length (locMax maxSampleSize input.length - 1).toNat := by
  rw [CreateRankLookupMap_eq maxSampleSize input h, List.length_map]
  unfold rankIndices
  rw [length_takeWhile_gt]
  omega

/-- C1 (code defect): with three grams and `maxSampleSize = 2` the loop
`for i := length - 1; i >= 0 && i > length-locMaxL; i--` visits index 2 only,
so the rank map has one entry, not the two entries of the cap. -/
theorem cap_two_keeps_one_gram :
    CreateRankLookupMap 2 [(str "a", 3), (str "b", 2), (str "c", 1)] = [(str "a", 1)] ∧
    (CreateRankLookupMap 2 [(str "a", 3), (str "b", 2), (str "c", 1)]).length ≠ 2 := by
  decide

/-- C2 (code defect): with `maxSampleSize = -1` ("no maximum") and three grams
the loop stops before index 0, so the least frequent gram is dropped: the rank
map has two entries with values 1 and 2, not three with values 1, 2, 3. -/
theorem no_cap_drops_last_gram :
    CreateRankLookupMap (-1) [(str "a", 3), (str "b", 2), (str "c", 1)] =
      [(str "a", 1), (str "b", 2)] ∧
    mapFind (CreateRankLookupMap (-1) [(str "a", 3), (str "b", 2), (str "c", 1)]) (str "c") =
      none := by
  decide

/-- C3, as stated, fails: with `maxSampleSize = 0` the map holding the single
gram "a" yields a rank map with no entry, not one entry. -/
theorem zero_cap_counterexample :
    ¬ ((CreateRankLookupMap 0 [(str "a", 1)]).length = [(str "a", (1 : Int))].length) := by
  decide

/-- C3, amended: for every occurrence map, with `maxSampleSize = 0` the rank
map is empty, no gram is kept (the test `locMaxL < 0` does not fire and the
loop condition `i > length - 0` never holds). -/
theorem zero_cap_empty (input : GoMap) : CreateRankLookupMap 0 input = [] := by
  unfold CreateRankLookupMap
  have hnil : ∀ L : Nat, rankIndices L (if (0 : Int) < 0 then (L : Int) else 0) = [] := by
    intro L
    apply List.eq_nil_iff_forall_not_mem.2
    intro i hi
    have := (mem_rankIndices _ _ _).1 hi
    simp only [lt_self_iff_false, if_false] at this
    omega
  simp only [hnil, List.foldl_nil]

/-- C10: for every occurrence map (any enumeration order, distinct keys) and
every setting of `maxSampleSize`, two grams of the rank map whose occurrence
counts satisfy `input[g1] > input[g2]` have ranks `rank(g1) < rank(g2)`.
Hence `AnalyzeWithNDepth("the cat sat", "test", 1)` ranks "t" (rank 1) before
"c" (rank 10), and the rank builder ranks "t" before "c" on every enumeration
order of that occurrence map. -/
theorem rank_monotone (maxSampleSize : Int) (input : GoMap)
    (hnd : (mapKeys input).Nodup) (g1 g2 : GoString) (r1 r2 : Int)
    (h1 : mapFind (CreateRankLookupMap maxSampleSize input) g1 = some r1)
    (h2 : mapFind (CreateRankLookupMap maxSampleSize input) g2 = some r2)
    (hocc : mapGet input g1 > mapGet input g2) :
    r1 < r2 ∧
    ((AnalyzeWithNDepth 100000 (str "the cat sat") (str "test") 1).map
        (fun l => (mapFind l.Profile (str "t"), mapFind l.Profile (str "c"))) =
      some (some 1, some 10)) ∧
    (∃ theMap, CreateOccurenceMap (str "the cat sat") 1 = some theMap ∧
      mapGet theMap (str "t") > mapGet theMap (str "c") ∧
      ∀ enum : GoMap, enum.Perm theMap → ∃ q1 q2,
        mapFind (CreateRankLookupMap 100000 enum) (str "t") = some q1 ∧
        mapFind (CreateRankLookupMap 100000 enum) (str "c") = some q2 ∧ q1 < q2) := by
  refine ⟨rank_lt_of_occurrence_gt maxSampleSize input hnd g1 g2 r1 r2 h1 h2 hocc, ?_, ?_⟩
  · decide
  · refine ⟨[(str "t", 3), (str "h", 1), (str "e", 1), (str " t", 1), (str "th", 1),
      (str "he", 1), (str "e ", 1), (str "c", 1), (str "a", 2), (str " c", 1), (str "ca", 1),
      (str "at", 2), (str "t ", 2), (str "s", 1), (str " s", 1), (str "sa", 1)],
      by decide, by decide, ?_⟩
    intro enum hp
    have hnd2 : (mapKeys enum).Nodup := (hp.map Prod.fst).nodup_iff.2 (by decide)
    have hlen : (enum.length : Int) < 100000 := by
      rw [hp.length_eq]; decide
    have ht : (str "t", (3 : Int)) ∈ enum := hp.mem_iff.2 (by decide)
    have hc : (str "c", (1 : Int)) ∈ enum := hp.mem_iff.2 (by decide)
    obtain ⟨q1, hq1⟩ := rank_of_key_of_cap_gt 100000 enum hnd2 hlen (str "t")
      (List.mem_map_of_mem Prod.fst ht)
    obtain ⟨q2, hq2⟩ := rank_of_key_of_cap_gt 100000 enum hnd2 hlen (str "c")
      (List.mem_map_of_mem Prod.fst hc)
    refine ⟨q1, q2, hq1, hq2, ?_⟩
    apply rank_lt_of_occurrence_gt 100000 enum hnd2 _ _ _ _ hq1 hq2
    rw [mapGet_of_mem enum hnd2 _ _ ht, mapGet_of_mem enum hnd2 _ _ hc]
    decide

/-- C10 at the rank map of "the cat sat": "t" (count 3, rank 1) and "c"
(count 1, rank 10). -/
theorem rank_monotone_witness :
    mapGet [(str "t", 3), (str "c", 1), (str "a", 2)] (str "t") >
      mapGet [(str "t", 3), (str "c", 1), (str "a", 2)] (str "c") ∧ (1 : Int) < 3 :=
  ⟨by decide,
   (rank_monotone 100000 [(str "t", 3), (str "c", 1), (str "a", 2)] (by decide)
      (str "t") (str "c") 1 3 (by decide) (by decide) (by decide)).1⟩

/-- C4 (code defect): the string of U+FFFD and "a" (bytes EF BF BD 61) is valid UTF-8
with two runes, and its first rune occupies 3 bytes; the loop of
`CalByteOffsetToRunOffset` rejects the prefix EF BF BD, because its last rune
U+FFFD equals `utf8.RuneError`, and the function returns `len(in) = 4`. -/
theorem cal_skips_replacement_char :
    ValidString [0xEF, 0xBF, 0xBD, 0x61] = true ∧
    RuneCountInString [0xEF, 0xBF, 0xBD, 0x61] = 2 ∧
    runeOffset [0xEF, 0xBF, 0xBD, 0x61] 1 = 3 ∧
    CalByteOffsetToRunOffset [0xEF, 0xBF, 0xBD, 0x61] 1 = 4 := by
  decide

/-- C5 (code defect): for the valid UTF-8 text of "a" and U+FFFD (bytes 61 EF BF BD) and
`gramDepth = 0`
the occurrence map has the key of U+FFFD and a space (bytes EF BF BD 20), a gram of two
code points where at most `gramDepth + 1 = 1` is stated. -/
theorem gram_longer_than_depth :
    ValidString [0x61, 0xEF, 0xBF, 0xBD] = true ∧
    CreateOccurenceMap [0x61, 0xEF, 0xBF, 0xBD] 0 =
      some [(str "a", 1), ([0xEF, 0xBF, 0xBD, 0x20], 1)] ∧
    RuneCountInString [0xEF, 0xBF, 0xBD, 0x20] = 2 := by
  decide

/-- C6 (code defect): with `gramDepth = 1` the loop
`for i := 1; i <= gramDepth+1; i++` also creates the grams of two letters: the
text "ab" yields the keys " a", "ab" and "b ", where the comment of
`CreateOccurenceMap` states that only 1-letter grams are created. -/
theorem depth_one_creates_two_letter_grams :
    CreateOccurenceMap (str "ab") 1 =
      some [(str "a", 1), (str "b", 1), (str " a", 1), (str "ab", 1), (str "b ", 1)] ∧
    RuneCountInString (str "ab") = 2 := by
  decide

/-! ## Facts about the decoder -/

theorem first_spec (b sz lo hi : Nat) (h : first b = some (sz, lo, hi)) :
    (sz = 2 ∨ sz = 3 ∨ sz = 4) ∧ 0x80 ≤ lo ∧ hi ≤ 0xBF ∧ 0xC2 ≤ b := by
  unfold first at h
  split_ifs at h <;> simp only [Option.some.injEq, Prod.mk.injEq] at h <;> omega

theorem RuneStart_iff (b : Nat) : RuneStart b = true ↔ b < 0x80 ∨ 0xBF < b := by
  unfold RuneStart
  simp only [Bool.not_eq_true', Bool.and_eq_false_imp, decide_eq_true_eq, decide_eq_false_iff_not]
  omega

theorem shape_of_ne_nil (s : GoString) (hs : s ≠ []) : Shape s := by
  rcases s with _ | ⟨a, t⟩
  · exact absurd rfl hs
  by_cases h0 : a < 0x80
  · exact Shape.ascii a t h0
  rcases hf : first a with _ | ⟨sz, lo, hi⟩
  · exact Shape.invalid a t h0 hf
  have hsz := (first_spec a sz lo hi hf).1
  rcases t with _ | ⟨b, t⟩
  · exact Shape.short1 a sz lo hi h0 hf
  by_cases hb : b < lo ∨ hi < b
  · exact Shape.bad2 a b sz lo hi t h0 hf hb
  by_cases h2 : sz = 2
  · subst h2; exact Shape.two a b lo hi t h0 hf hb
  have h3 : 3 ≤ sz := by omega
  rcases t with _ | ⟨c, t⟩
  · exact Shape.short2 a b sz lo hi h0 hf h3 hb
  by_cases hc : c < 0x80 ∨ 0xBF < c
  · exact Shape.bad3 a b c sz lo hi t h0 hf h3 hb hc
  by_cases h3' : sz = 3
  · subst h3'; exact Shape.three a b c lo hi t h0 hf hb hc
  have h4 : sz = 4 := by omega
  subst h4
  rcases t with _ | ⟨d, t⟩
  · exact Shape.short3 a b c lo hi h0 hf hb hc
  by_cases hd : d < 0x80 ∨ 0xBF < d
  · exact Shape.bad4 a b c d lo hi t h0 hf hb hc hd
  · exact Shape.four a b c d lo hi t h0 hf hb hc hd

theorem decode_ascii (a : Nat) (t : GoString) (h : a < 0x80) :
    DecodeRuneInString (a :: t) = (a, 1) := by
  simp only [DecodeRuneInString, RuneSelf, h, if_true]

theorem decode_invalid (a : Nat) (t : GoString) (h0 : ¬ a < 0x80) (hf : first a = none) :
    DecodeRuneInString (a :: t) = (RuneError, 1) := by
  simp only [DecodeRuneInString, RuneSelf, h0, if_false, hf]

theorem decode_short1 (a sz lo hi : Nat) (h0 : ¬ a < 0x80) (hf : first a = some (sz, lo, hi)) :
    DecodeRuneInString [a] = (RuneError, 1) := by
  simp only [DecodeRuneInString, RuneSelf, h0, if_false, hf]
  split_ifs <;> rfl

theorem decode_bad2 (a b sz lo hi : Nat) (t : GoString) (h0 : ¬ a < 0x80)
    (hf : first a = some (sz, lo, hi)) (hb : b < lo ∨ hi < b) :
    DecodeRuneInString (a :: b :: t) = (RuneError, 1) := by
  simp only [DecodeRuneInString, RuneSelf, h0, if_false, hf, hb, if_true]
  split_ifs <;> rfl

theorem decode_two (a b lo hi : Nat) (t : GoString) (h0 : ¬ a < 0x80)
    (hf : first a = some (2, lo, hi)) (hb : ¬ (b < lo ∨ hi < b)) :
    DecodeRuneInString (a :: b :: t) = (a % 32 * 64 + b % 64, 2) := by
  have h1 : ¬ (t.length + 1 + 1 < 2) := by omega
  simp only [DecodeRuneInString, RuneSelf, h0, if_false, hf, hb, List.length_cons, h1,
    le_refl, if_true]

theorem decode_short2 (a b sz lo hi : Nat) (h0 : ¬ a < 0x80)
    (hf : first a = some (sz, lo, hi)) (h3 : 3 ≤ sz) (_ : ¬ (b < lo ∨ hi < b)) :
    DecodeRuneInString [a, b] = (RuneError, 1) := by
  have h1 : (0 + 1 + 1 < sz) := by omega
  simp only [DecodeRuneInString, RuneSelf, h0, if_false, hf, List.length_cons, List.length_nil,
    h1, if_true]

theorem decode_bad3 (a b c sz lo hi : Nat) (t : GoString) (h0 : ¬ a < 0x80)
    (hf : first a = some (sz, lo, hi)) (h3 : 3 ≤ sz) (hb : ¬ (b < lo ∨ hi < b))
    (hc : c < 0x80 ∨ 0xBF < c) :
    DecodeRuneInString (a :: b :: c :: t) = (RuneError, 1) := by
  have h2 : ¬ sz ≤ 2 := by omega
  simp only [DecodeRuneInString, RuneSelf, h0, if_false, hf, hb, hc, h2, if_true]
  split_ifs <;> rfl

theorem decode_three (a b c lo hi : Nat) (t : GoString) (h0 : ¬ a < 0x80)
    (hf : first a = some (3, lo, hi)) (hb : ¬ (b < lo ∨ hi < b))
    (hc : ¬ (c < 0x80 ∨ 0xBF < c)) :
    DecodeRuneInString (a :: b :: c :: t) = (a % 16 * 4096 + b % 64 * 64 + c % 64, 3) := by
  have h1 : ¬ (t.length + 1 + 1 + 1 < 3) := by omega
  have h2 : ¬ (3 ≤ 2) := by omega
  simp only [DecodeRuneInString, RuneSelf, h0, if_false, hf, hb, hc, List.length_cons, h1, h2,
    le_refl, if_true]

theorem decode_short3 (a b c lo hi : Nat) (h0 : ¬ a < 0x80)
    (hf : first a = some (4, lo, hi)) :
    DecodeRuneInString [a, b, c] = (RuneError, 1) := by
  have h1 : (0 + 1 + 1 + 1 < 4) := by omega
  simp only [DecodeRuneInString, RuneSelf, h0, if_false, hf, List.length_cons, List.length_nil,
    h1, if_true]

theorem decode_bad4 (a b c d lo hi : Nat) (t : GoString) (h0 : ¬ a < 0x80)
    (hf : first a = some (4, lo, hi)) (hb : ¬ (b < lo ∨ hi < b))
    (hc : ¬ (c < 0x80 ∨ 0xBF < c)) (hd : d < 0x80 ∨ 0xBF < d) :
    DecodeRuneInString (a :: b :: c :: d :: t) = (RuneError, 1) := by
  have h1 : ¬ (t.length + 1 + 1 + 1 + 1 < 4) := by omega
  have h2 : ¬ (4 ≤ 2) := by omega
  have h3 : ¬ (4 ≤ 3) := by omega
  simp only [DecodeRuneInString, RuneSelf, h0, if_false, hf, hb, hc, hd, List.length_cons, h1,
    h2, h3, if_true]

theorem decode_four (a b c d lo hi : Nat) (t : GoString) (h0 : ¬ a < 0x80)
    (hf : first a = some (4, lo, hi)) (hb : ¬ (b < lo ∨ hi < b))
    (hc : ¬ (c < 0x80 ∨ 0xBF < c)) (hd : ¬ (d < 0x80 ∨ 0xBF < d)) :
    DecodeRuneInString (a :: b :: c :: d :: t) =
      (a % 8 * 262144 + b % 64 * 4096 + c % 64 * 64 + d % 64, 4) := by
  have h1 : ¬ (t.length + 1 + 1 + 1 + 1 < 4) := by omega
  have h2 : ¬ (4 ≤ 2) := by omega
  have h3 : ¬ (4 ≤ 3) := by omega
  simp only [DecodeRuneInString, RuneSelf, h0, if_false, hf, hb, hc, hd, List.length_cons, h1,
    h2, h3]

theorem decode_width_pos (s : GoString) (hs : s ≠ []) : 1 ≤ (DecodeRuneInString s).2 := by
  cases shape_of_ne_nil s hs with
  | ascii a t h => rw [decode_ascii a t h]
  | invalid a t h0 hf => rw [decode_invalid a t h0 hf]
  | short1 a sz lo hi h0 hf => rw [decode_short1 a sz lo hi h0 hf]
  | bad2 a b sz lo hi t h0 hf hb => rw [decode_bad2 a b sz lo hi t h0 hf hb]
  | two a b lo hi t h0 hf hb => rw [decode_two a b lo hi t h0 hf hb]; simp
  | short2 a b sz lo hi h0 hf h3 hb => rw [decode_short2 a b sz lo hi h0 hf h3 hb]
  | bad3 a b c sz lo hi t h0 hf h3 hb hc => rw [decode_bad3 a b c sz lo hi t h0 hf h3 hb hc]
  | three a b c lo hi t h0 hf hb hc => rw [decode_three a b c lo hi t h0 hf hb hc]; simp
  | short3 a b c lo hi h0 hf hb hc => rw [decode_short3 a b c lo hi h0 hf]
  | bad4 a b c d lo hi t h0 hf hb hc hd => rw [decode_bad4 a b c d lo hi t h0 hf hb hc hd]
  | four a b c d lo hi t h0 hf hb hc hd => rw [decode_four a b c d lo hi t h0 hf hb hc hd]; simp

theorem decode_width_le (s : GoString) : (DecodeRuneInString s).2 ≤ s.length := by
  by_cases hs : s = []
  · subst hs; simp [DecodeRuneInString]
  cases shape_of_ne_nil s hs with
  | ascii a t h => rw [decode_ascii a t h]; simp
  | invalid a t h0 hf => rw [decode_invalid a t h0 hf]; simp
  | short1 a sz lo hi h0 hf => rw [decode_short1 a sz lo hi h0 hf]; simp
  | bad2 a b sz lo hi t h0 hf hb => rw [decode_bad2 a b sz lo hi t h0 hf hb]; simp
  | two a b lo hi t h0 hf hb => rw [decode_two a b lo hi t h0 hf hb]; simp
  | short2 a b sz lo hi h0 hf h3 hb => rw [decode_short2 a b sz lo hi h0 hf h3 hb]; simp
  | bad3 a b c sz lo hi t h0 hf h3 hb hc =>
    rw [decode_bad3 a b c sz lo hi t h0 hf h3 hb hc]; simp
  | three a b c lo hi t h0 hf hb hc => rw [decode_three a b c lo hi t h0 hf hb hc]; simp
  | short3 a b c lo hi h0 hf hb hc => rw [decode_short3 a b c lo hi h0 hf]; simp
  | bad4 a b c d lo hi t h0 hf hb hc hd =>
    rw [decode_bad4 a b c d lo hi t h0 hf hb hc hd]; simp
  | four a b c d lo hi t h0 hf hb hc hd =>
    rw [decode_four a b c d lo hi t h0 hf hb hc hd]; simp

/-- A string followed by a rune start (or by nothing) decodes like the string
alone: a sequence is never completed by a byte that starts a rune. -/
theorem decode_append_start (u v : GoString) (hu : u ≠ [])
    (hv : ∀ b ∈ v.head?, b < 0x80 ∨ 0xBF < b) :
    DecodeRuneInString (u ++ v) = DecodeRuneInString u := by
  cases shape_of_ne_nil u hu with
  | ascii a t h => rw [List.cons_append, decode_ascii a _ h, decode_ascii a _ h]
  | invalid a t h0 hf => rw [List.cons_append, decode_invalid a _ h0 hf, decode_invalid a _ h0 hf]
  | short1 a sz lo hi h0 hf =>
    rw [decode_short1 a sz lo hi h0 hf]
    rcases v with _ | ⟨x, v⟩
    · exact decode_short1 a sz lo hi h0 hf
    · have hx := hv x (by simp)
      have hs := first_spec a sz lo hi hf
      exact decode_bad2 a x sz lo hi v h0 hf (by omega)
  | bad2 a b sz lo hi t h0 hf hb =>
    rw [List.cons_append, List.cons_append, decode_bad2 a b sz lo hi _ h0 hf hb,
      decode_bad2 a b sz lo hi _ h0 hf hb]
  | two a b lo hi t h0 hf hb =>
    rw [List.cons_append, List.cons_append, decode_two a b lo hi _ h0 hf hb,
      decode_two a b lo hi _ h0 hf hb]
  | short2 a b sz lo hi h0 hf h3 hb =>
    rw [decode_short2 a b sz lo hi h0 hf h3 hb]
    rcases v with _ | ⟨x, v⟩
    · exact decode_short2 a b sz lo hi h0 hf h3 hb
    · have hx := hv x (by simp)
      exact decode_bad3 a b x sz lo hi v h0 hf h3 hb hx
  | bad3 a b c sz lo hi t h0 hf h3 hb hc =>
    rw [List.cons_append, List.cons_append, List.cons_append,
      decode_bad3 a b c sz lo hi _ h0 hf h3 hb hc, decode_bad3 a b c sz lo hi _ h0 hf h3 hb hc]
  | three a b c lo hi t h0 hf hb hc =>
    rw [List.cons_append, List.cons_append, List.cons_append,
      decode_three a b c lo hi _ h0 hf hb hc, decode_three a b c lo hi _ h0 hf hb hc]
  | short3 a b c lo hi h0 hf hb hc =>
    rw [decode_short3 a b c lo hi h0 hf]
    rcases v with _ | ⟨x, v⟩
    · exact decode_short3 a b c lo hi h0 hf
    · have hx := hv x (by simp)
      exact decode_bad4 a b c x lo hi v h0 hf hb hc hx
  | bad4 a b c d lo hi t h0 hf hb hc hd =>
    rw [List.cons_append, List.cons_append, List.cons_append, List.cons_append,
      decode_bad4 a b c d lo hi _ h0 hf hb hc hd, decode_bad4 a b c d lo hi _ h0 hf hb hc hd]
  | four a b c d lo hi t h0 hf hb hc hd =>
    rw [List.cons_append, List.cons_append, List.cons_append, List.cons_append,
      decode_four a b c d lo hi _ h0 hf hb hc hd, decode_four a b c d lo hi _ h0 hf hb hc hd]

/-- The forms of a whole rune. -/
theorem Whole.cases {v : GoString} (h : Whole v) :
    (∃ a, v = [a] ∧ a < 0x80) ∨
    (∃ a b lo hi, v = [a, b] ∧ ¬ a < 0x80 ∧ first a = some (2, lo, hi) ∧ ¬ (b < lo ∨ hi < b)) ∨
    (∃ a b c lo hi, v = [a, b, c] ∧ ¬ a < 0x80 ∧ first a = some (3, lo, hi) ∧
      ¬ (b < lo ∨ hi < b) ∧ ¬ (c < 0x80 ∨ 0xBF < c)) ∨
    (∃ a b c d lo hi, v = [a, b, c, d] ∧ ¬ a < 0x80 ∧ first a = some (4, lo, hi) ∧
      ¬ (b < lo ∨ hi < b) ∧ ¬ (c < 0x80 ∨ 0xBF < c) ∧ ¬ (d < 0x80 ∨ 0xBF < d)) := by
  obtain ⟨hne, hw, hnerr⟩ := h
  cases shape_of_ne_nil v hne with
  | ascii a t h =>
    rw [decode_ascii a t h] at hw
    simp only [List.length_cons] at hw
    have : t = [] := List.length_eq_zero.1 (by omega)
    subst this
    exact Or.inl ⟨a, rfl, h⟩
  | invalid a t h0 hf =>
    rw [decode_invalid a t h0 hf] at hw hnerr
    exact absurd ⟨rfl, hw.symm⟩ hnerr
  | short1 a sz lo hi h0 hf =>
    rw [decode_short1 a sz lo hi h0 hf] at hnerr
    exact absurd ⟨rfl, rfl⟩ hnerr
  | bad2 a b sz lo hi t h0 hf hb =>
    rw [decode_bad2 a b sz lo hi t h0 hf hb] at hw
    simp at hw
  | two a b lo hi t h0 hf hb =>
    rw [decode_two a b lo hi t h0 hf hb] at hw
    simp only [List.length_cons] at hw
    have : t = [] := List.length_eq_zero.1 (by omega)
    subst this
    exact Or.inr (Or.inl ⟨a, b, lo, hi, rfl, h0, hf, hb⟩)
  | short2 a b sz lo hi h0 hf h3 hb =>
    rw [decode_short2 a b sz lo hi h0 hf h3 hb] at hw
    simp at hw
  | bad3 a b c sz lo hi t h0 hf h3 hb hc =>
    rw [decode_bad3 a b c sz lo hi t h0 hf h3 hb hc] at hw
    simp at hw
  | three a b c lo hi t h0 hf hb hc =>
    rw [decode_three a b c lo hi t h0 hf hb hc] at hw
    simp only [List.length_cons] at hw
    have : t = [] := List.length_eq_zero.1 (by omega)
    subst this
    exact Or.inr (Or.inr (Or.inl ⟨a, b, c, lo, hi, rfl, h0, hf, hb, hc⟩))
  | short3 a b c lo hi h0 hf hb hc =>
    rw [decode_short3 a b c lo hi h0 hf] at hw
    simp at hw
  | bad4 a b c d lo hi t h0 hf hb hc hd =>
    rw [decode_bad4 a b c d lo hi t h0 hf hb hc hd] at hw
    simp at hw
  | four a b c d lo hi t h0 hf hb hc hd =>
    rw [decode_four a b c d lo hi t h0 hf hb hc hd] at hw
    simp only [List.length_cons] at hw
    have : t = [] := List.length_eq_zero.1 (by omega)
    subst this
    exact Or.inr (Or.inr (Or.inr ⟨a, b, c, d, lo, hi, rfl, h0, hf, hb, hc, hd⟩))

theorem whole_ascii (a : Nat) (h : a < 0x80) : Whole [a] := by
  refine ⟨by simp, ?_, ?_⟩
  · rw [decode_ascii a [] h]; rfl
  · rw [decode_ascii a [] h]
    intro hh
    have := hh.1
    simp only [RuneError] at this
    omega

/-- A whole rune decodes to itself whatever follows it. -/
theorem Whole.decode_append {v : GoString} (h : Whole v) (x : GoString) :
    DecodeRuneInString (v ++ x) = DecodeRuneInString v := by
  rcases h.cases with ⟨a, rfl, ha⟩ | ⟨a, b, lo, hi, rfl, h0, hf, hb⟩ |
    ⟨a, b, c, lo, hi, rfl, h0, hf, hb, hc⟩ | ⟨a, b, c, d, lo, hi, rfl, h0, hf, hb, hc, hd⟩
  · exact (decode_ascii a _ ha).trans (decode_ascii a _ ha).symm
  · exact (decode_two a b lo hi _ h0 hf hb).trans (decode_two a b lo hi _ h0 hf hb).symm
  · exact (decode_three a b c lo hi _ h0 hf hb hc).trans
      (decode_three a b c lo hi _ h0 hf hb hc).symm
  · exact (decode_four a b c d lo hi _ h0 hf hb hc hd).trans
      (decode_four a b c d lo hi _ h0 hf hb hc hd).symm

/-- A whole rune begins with a byte that starts a rune. -/
theorem Whole.head_start {v : GoString} (h : Whole v) :
    ∀ b ∈ v.head?, b < 0x80 ∨ 0xBF < b := by
  rcases h.cases with ⟨a, rfl, ha⟩ | ⟨a, b, lo, hi, rfl, h0, hf, hb⟩ |
    ⟨a, b, c, lo, hi, rfl, h0, hf, hb, hc⟩ | ⟨a, b, c, d, lo, hi, rfl, h0, hf, hb, hc, hd⟩
  · intro x hx
    simp only [List.head?_cons, Option.mem_def, Option.some.injEq] at hx
    omega
  all_goals
    intro x hx
    simp only [List.head?_cons, Option.mem_def, Option.some.injEq] at hx
    have hs := first_spec a _ lo hi hf
    omega

/-- A whole rune is one ASCII byte, or consists of bytes from `0x80` on. -/
theorem Whole.bytes {v : GoString} (h : Whole v) :
    (∃ a, v = [a] ∧ a < 0x80) ∨ (∀ b ∈ v, 0x80 ≤ b) := by
  rcases h.cases with ⟨a, rfl, ha⟩ | ⟨a, b, lo, hi, rfl, h0, hf, hb⟩ |
    ⟨a, b, c, lo, hi, rfl, h0, hf, hb, hc⟩ | ⟨a, b, c, d, lo, hi, rfl, h0, hf, hb, hc, hd⟩
  · exact Or.inl ⟨a, rfl, ha⟩
  all_goals
    right
    have hs := first_spec a _ lo hi hf
    intro x hx
    simp only [List.mem_cons, List.mem_singleton, List.not_mem_nil, or_false] at hx
    rcases hx with rfl | rfl | rfl | rfl <;> omega

/-- The chunk that the decoder takes from a string is a whole rune exactly
when the decoder does not report an invalid or short encoding. -/
theorem whole_take_iff (s : GoString) (hs : s ≠ []) :
    Whole (s.take (DecodeRuneInString s).2) ↔
      ¬ ((DecodeRuneInString s).1 = RuneError ∧ (DecodeRuneInString s).2 = 1) := by
  have herr : ∀ (a : Nat) (t : GoString), ¬ a < 0x80 →
      DecodeRuneInString (a :: t) = (RuneError, 1) → DecodeRuneInString [a] = (RuneError, 1) →
      (Whole ((a :: t).take (DecodeRuneInString (a :: t)).2) ↔
        ¬ ((DecodeRuneInString (a :: t)).1 = RuneError ∧ (DecodeRuneInString (a :: t)).2 = 1)) := by
    intro a t _ h1 h2
    rw [h1]
    simp only [List.take_succ_cons, List.take_zero, and_self, not_true_eq_false, iff_false]
    intro hw
    exact hw.2.2 ⟨by rw [h2], rfl⟩
  have hone : ∀ a : Nat, ¬ a < 0x80 → DecodeRuneInString [a] = (RuneError, 1) := by
    intro a h0
    rcases hf : first a with _ | ⟨sz, lo, hi⟩
    · exact decode_invalid a [] h0 hf
    · exact decode_short1 a sz lo hi h0 hf
  cases shape_of_ne_nil s hs with
  | ascii a t h =>
    rw [decode_ascii a t h]
    simp only [List.take_succ_cons, List.take_zero, and_true]
    constructor
    · intro _ hh; simp only [RuneError] at hh; omega
    · intro _; exact whole_ascii a h
  | invalid a t h0 hf => exact herr a t h0 (decode_invalid a t h0 hf) (hone a h0)
  | short1 a sz lo hi h0 hf => exact herr a [] h0 (hone a h0) (hone a h0)
  | bad2 a b sz lo hi t h0 hf hb =>
    exact herr a _ h0 (decode_bad2 a b sz lo hi t h0 hf hb) (hone a h0)
  | two a b lo hi t h0 hf hb =>
    rw [decode_two a b lo hi t h0 hf hb]
    simp only [List.take_succ_cons, List.take_zero, OfNat.ofNat_ne_one, and_false,
      not_false_eq_true, iff_true]
    refine ⟨by simp, ?_, by simp⟩
    rw [decode_two a b lo hi [] h0 hf hb]; rfl
  | short2 a b sz lo hi h0 hf h3 hb =>
    exact herr a _ h0 (decode_short2 a b sz lo hi h0 hf h3 hb) (hone a h0)
  | bad3 a b c sz lo hi t h0 hf h3 hb hc =>
    exact herr a _ h0 (decode_bad3 a b c sz lo hi t h0 hf h3 hb hc) (hone a h0)
  | three a b c lo hi t h0 hf hb hc =>
    rw [decode_three a b c lo hi t h0 hf hb hc]
    simp only [List.take_succ_cons, List.take_zero, OfNat.ofNat_ne_one, and_false,
      not_false_eq_true, iff_true]
    refine ⟨by simp, ?_, by simp⟩
    rw [decode_three a b c lo hi [] h0 hf hb hc]; rfl
  | short3 a b c lo hi h0 hf hb hc =>
    exact herr a _ h0 (decode_short3 a b c lo hi h0 hf) (hone a h0)
  | bad4 a b c d lo hi t h0 hf hb hc hd =>
    exact herr a _ h0 (decode_bad4 a b c d lo hi t h0 hf hb hc hd) (hone a h0)
  | four a b c d lo hi t h0 hf hb hc hd =>
    rw [decode_four a b c d lo hi t h0 hf hb hc hd]
    simp only [List.take_succ_cons, List.take_zero, OfNat.ofNat_ne_one, and_false,
      not_false_eq_true, iff_true]
    refine ⟨by simp, ?_, by simp⟩
    rw [decode_four a b c d lo hi [] h0 hf hb hc hd]; rfl

/-! ## Facts about the runes of a string -/

theorem runesLoop_fuel : ∀ (n : Nat) (s : GoString), s.length ≤ n → ∀ m : Nat, s.length ≤ m →
    runesLoop n s = runesLoop m s := by
  intro n
  induction n with
  | zero =>
    intro s hs m _
    have : s = [] := List.length_eq_zero.1 (Nat.le_zero.1 hs)
    subst this
    cases m <;> rfl
  | succ n ih =>
    intro s hs m hm
    rcases s with _ | ⟨c, t⟩
    · cases m <;> rfl
    · rcases m with _ | m
      · simp at hm
      · simp only [runesLoop]
        have hpos := decode_width_pos (c :: t) (by simp)
        have hl : ((c :: t).drop (DecodeRuneInString (c :: t)).2).length ≤ t.length := by
          simp only [List.length_drop, List.length_cons]; omega
        simp only [List.length_cons] at hs hm
        rw [ih _ (by omega) m (by omega)]

theorem runes_nil : runes [] = [] := rfl

theorem runes_cons (c : Nat) (t : GoString) :
    runes (c :: t) = (c :: t).take (DecodeRuneInString (c :: t)).2 ::
      runes ((c :: t).drop (DecodeRuneInString (c :: t)).2) := by
  have hpos := decode_width_pos (c :: t) (by simp)
  have hl : ((c :: t).drop (DecodeRuneInString (c :: t)).2).length ≤ t.length := by
    simp only [List.length_drop, List.length_cons]; omega
  show runesLoop (t.length + 1) (c :: t) = _
  simp only [runesLoop, runes]
  rw [runesLoop_fuel t.length _ hl _ (le_refl _)]

theorem runeCountLoop_eq (n : Nat) : ∀ s : GoString,
    runeCountLoop n s = (runesLoop n s).length := by
  induction n with
  | zero => intro s; rfl
  | succ n ih =>
    intro s
    rcases s with _ | ⟨c, t⟩
    · rfl
    · simp only [runeCountLoop, runesLoop, List.length_cons, ih]

/-- The rune count is the number of rune chunks. -/
theorem runeCount_eq (s : GoString) : RuneCountInString s = (runes s).length :=
  runeCountLoop_eq _ _

theorem validLoop_iff (n : Nat) : ∀ s : GoString,
    validLoop n s = true ↔ ∀ c ∈ runesLoop n s, Whole c := by
  induction n with
  | zero => intro s; simp [validLoop, runesLoop]
  | succ n ih =>
    intro s
    rcases s with _ | ⟨c, t⟩
    · simp [validLoop, runesLoop]
    · simp only [validLoop, runesLoop, List.mem_cons, forall_eq_or_imp]
      rw [whole_take_iff (c :: t) (by simp)]
      by_cases herr : (DecodeRuneInString (c :: t)).1 = RuneError ∧
          (DecodeRuneInString (c :: t)).2 = 1
      · simp [herr]
      · simp only [herr, if_false, not_false_eq_true, true_and]
        exact ih _

/-- A string is valid UTF-8 exactly when all its rune chunks are whole runes. -/
theorem valid_iff (s : GoString) : ValidString s = true ↔ ∀ c ∈ runes s, Whole c :=
  validLoop_iff _ _

/-- The rune chunks of a string, put together, are the string. -/
theorem runes_flatten (s : GoString) : (runes s).flatten = s := by
  generalize hn : s.length = n
  induction n using Nat.strong_induction_on generalizing s with
  | _ n ih =>
    rcases s with _ | ⟨c, t⟩
    · rfl
    · rw [runes_cons, List.flatten_cons]
      have hpos := decode_width_pos (c :: t) (by simp)
      rw [ih _ _ _ rfl]
      · exact List.take_append_drop _ _
      · rw [← hn]
        simp only [List.length_drop, List.length_cons]; omega

/-- The runes of a string that is followed by a rune start (or by nothing) are
not affected by what follows. -/
theorem runes_append_start (u v : GoString) (hv : ∀ b ∈ v.head?, b < 0x80 ∨ 0xBF < b) :
    runes (u ++ v) = runes u ++ runes v := by
  generalize hn : u.length = n
  induction n using Nat.strong_induction_on generalizing u with
  | _ n ih =>
    rcases u with _ | ⟨c, t⟩
    · rfl
    · have hpos := decode_width_pos (c :: t) (by simp)
      have hle := decode_width_le (c :: t)
      have hd := decode_append_start (c :: t) v (by simp) hv
      rw [List.cons_append] at hd
      rw [List.cons_append, runes_cons, runes_cons, hd, ← List.cons_append,
        List.take_append_of_le_length hle, List.drop_append_of_le_length hle,
        ih _ _ _ rfl, List.cons_append]
      rw [← hn]
      simp only [List.length_drop, List.length_cons]; omega

/-- A whole rune at the start of a string is its first rune chunk. -/
theorem runes_whole_append (v x : GoString) (h : Whole v) : runes (v ++ x) = v :: runes x := by
  obtain ⟨hne, hw, _⟩ := h
  rcases v with _ | ⟨c, t⟩
  · exact absurd rfl hne
  · have hd := Whole.decode_append ⟨hne, hw, by assumption⟩ x
    rw [List.cons_append] at hd
    rw [List.cons_append, runes_cons, hd, hw, ← List.cons_append, List.take_left',
      List.drop_left']
    · rfl
    · rfl

/-- Whole runes put together have themselves as rune chunks. -/
theorem runes_flatten_whole (cs : List GoString) (h : ∀ c ∈ cs, Whole c) :
    runes cs.flatten = cs := by
  induction cs with
  | nil => rfl
  | cons c cs ih =>
    rw [List.flatten_cons, runes_whole_append _ _ (h c (List.mem_cons_self _ _)),
      ih (fun x hx => h x (List.mem_cons_of_mem _ hx))]

/-- A string is valid UTF-8 exactly when it consists of whole runes. -/
theorem valid_iff_exists (s : GoString) :
    ValidString s = true ↔ ∃ cs : List GoString, (∀ c ∈ cs, Whole c) ∧ s = cs.flatten := by
  constructor
  · intro h
    exact ⟨runes s, (valid_iff s).1 h, (runes_flatten s).symm⟩
  · rintro ⟨cs, hcs, rfl⟩
    rw [valid_iff, runes_flatten_whole cs hcs]
    exact hcs

/-! ## Facts about `CalByteOffsetToRunOffset` -/

/-- A string whose last rune `DecodeLastRuneInString` decodes to something
other than `RuneError` ends with a whole rune. -/
theorem decodeLast_whole (s : GoString) (h : (DecodeLastRuneInString s).1 ≠ RuneError) :
    ∃ u v, s = u ++ v ∧ Whole v := by
  unfold DecodeLastRuneInString at h
  by_cases hlen : s.length = 0
  · simp only [hlen, if_true] at h
    exact absurd rfl h
  simp only [hlen, if_false] at h
  have hne : s ≠ [] := fun hs => hlen (by rw [hs]; rfl)
  by_cases hr : s.getD (s.length - 1) 0 < RuneSelf
  · refine ⟨s.dropLast, [s.getD (s.length - 1) 0], ?_, whole_ascii _ hr⟩
    have hlt : s.length - 1 < s.length := by omega
    rw [List.getD_eq_getElem _ _ hlt, ← List.getLast_eq_getElem s hne,
      List.dropLast_append_getLast hne]
  · rw [if_neg hr] at h
    by_cases hst : lastRuneStart s (s.length - UTFMax) +
        (DecodeRuneInString (s.drop (lastRuneStart s (s.length - UTFMax)))).2 ≠ s.length
    · rw [if_pos hst] at h
      exact absurd rfl h
    · rw [if_neg hst] at h
      have hst2 := not_not.1 hst
      refine ⟨s.take (lastRuneStart s (s.length - UTFMax)),
        s.drop (lastRuneStart s (s.length - UTFMax)), (List.take_append_drop _ _).symm, ?_, ?_, ?_⟩
      · intro hnil
        rw [hnil] at h
        exact h rfl
      · rw [List.length_drop]; omega
      · intro hh
        exact h hh.1

theorem head?_append_of_ne_nil (v x : GoString) (hv : v ≠ []) : (v ++ x).head? = v.head? := by
  rcases v with _ | ⟨a, v⟩
  · exact absurd rfl hv
  · rfl

/-- The bytes before the end of a whole rune are occupied by the runes up to
that rune. -/
theorem runeOffset_of_split (u v x : GoString) (hv : Whole v) :
    runeOffset (u ++ v ++ x) (runes (u ++ v)).length = (u ++ v).length := by
  have h1 : runes (u ++ v) = runes u ++ [v] := by
    rw [runes_append_start u v hv.head_start]
    have := runes_whole_append v [] hv
    rw [List.append_nil] at this
    rw [this]; rfl
  have h2 : runes (u ++ v ++ x) = runes u ++ [v] ++ runes x := by
    rw [List.append_assoc u v x, runes_append_start u (v ++ x), runes_whole_append v x hv]
    · simp
    · rw [head?_append_of_ne_nil v x hv.1]; exact hv.head_start
  unfold runeOffset
  rw [h2, h1, List.take_left', List.flatten_append, runes_flatten]
  · simp
  · rfl

/-- The result of `CalByteOffsetToRunOffset` for a non-negative rune offset:
the length of the string, or the number of bytes occupied by that many runes. -/
theorem cal_cases (s : GoString) (k : Int) (hk : 0 ≤ k) :
    CalByteOffsetToRunOffset s k = s.length ∨
      CalByteOffsetToRunOffset s k = runeOffset s k.toNat := by
  unfold CalByteOffsetToRunOffset
  by_cases h1 : k < 0 ∨ (RuneCountInString s : Int) ≤ k
  · left; simp only [h1, if_true]
  simp only [h1, if_false]
  by_cases h2 : k = 0
  · right
    subst h2
    simp [runeOffset]
  simp only [h2, if_false]
  rcases hfind : (List.range' k.toNat (s.length - k.toNat)).find? (fun i =>
      decide ((DecodeLastRuneInString (s.take i)).1 ≠ RuneError) &&
      decide ((RuneCountInString (s.take i) : Int) = k)) with _ | i
  · left; rfl
  · right
    simp only []
    have hp := List.find?_some hfind
    have hmem := List.mem_of_find?_eq_some hfind
    simp only [Bool.and_eq_true, decide_eq_true_eq] at hp
    obtain ⟨hdec, hcount⟩ := hp
    obtain ⟨j, hj, hij⟩ := List.mem_range'.1 hmem
    have hi : i ≤ s.length := by omega
    obtain ⟨u, v, huv, hw⟩ := decodeLast_whole _ hdec
    have hs : s = u ++ v ++ s.drop i := by
      rw [← huv]; exact (List.take_append_drop _ _).symm
    have hk2 : k.toNat = (runes (u ++ v)).length := by
      rw [← huv, ← runeCount_eq]; omega
    have hlen : (u ++ v).length = i := by
      rw [← huv, List.length_take]; omega
    rw [hk2, ← hlen]
    conv_rhs => rw [hs]
    exact (runeOffset_of_split u v (s.drop i) hw).symm

theorem flatten_take_add_drop (L : List GoString) (k : Nat) :
    (L.take k).flatten ++ (L.drop k).flatten = L.flatten := by
  rw [← List.flatten_append, List.take_append_drop]

theorem take_of_append_eq (A B s : GoString) (h : A ++ B = s) : s.take A.length = A := by
  subst h; exact List.take_left' rfl

theorem drop_of_append_eq (A B s : GoString) (h : A ++ B = s) : s.drop A.length = B := by
  subst h; exact List.drop_left' rfl

theorem runeOffset_le (s : GoString) (k : Nat) : runeOffset s k ≤ s.length := by
  have h := congrArg List.length (flatten_take_add_drop (runes s) k)
  rw [runes_flatten, List.length_append] at h
  unfold runeOffset
  omega

theorem runeOffset_mono (s : GoString) (k1 k2 : Nat) (h : k1 ≤ k2) :
    runeOffset s k1 ≤ runeOffset s k2 := by
  have h1 := congrArg List.length (flatten_take_add_drop ((runes s).take k2) k1)
  rw [List.take_take, Nat.min_eq_left h, List.length_append] at h1
  unfold runeOffset
  omega

/-- The bytes between two rune offsets are the rune chunks between them. -/
theorem slice_runeOffset (s : GoString) (k1 k2 : Nat) (h : k1 ≤ k2) :
    (s.take (runeOffset s k2)).drop (runeOffset s k1) =
      (((runes s).take k2).drop k1).flatten := by
  have h2 : s.take (runeOffset s k2) = ((runes s).take k2).flatten := by
    have := flatten_take_add_drop (runes s) k2
    rw [runes_flatten] at this
    exact take_of_append_eq _ _ _ this
  have h1 := flatten_take_add_drop ((runes s).take k2) k1
  rw [List.take_take, Nat.min_eq_left h] at h1
  rw [h2]
  exact drop_of_append_eq _ _ _ h1

/-- The bytes from a rune offset to the end are the rune chunks from there. -/
theorem slice_runeOffset_end (s : GoString) (k1 : Nat) :
    (s.take s.length).drop (runeOffset s k1) = ((runes s).drop k1).flatten := by
  have h1 := flatten_take_add_drop (runes s) k1
  rw [runes_flatten] at h1
  rw [List.take_length]
  exact drop_of_append_eq _ _ _ h1

/-- Where `generateNthGrams` takes the slice `text[p1:pn]`, the offsets are in
order and the slice consists of one or more rune chunks of the text. -/
theorem gram_spec (text : GoString) (p : Nat) (n : Int) (hn : 1 ≤ n)
    (hb : ¬ gramBreak text p n) :
    CalByteOffsetToRunOffset text p < CalByteOffsetToRunOffset text ((p : Int) + n) ∧
    CalByteOffsetToRunOffset text ((p : Int) + n) ≤ text.length ∧
    gramSlice text p n ≠ [] ∧
    ∃ cs : List GoString, (∀ c ∈ cs, c ∈ runes text) ∧ gramSlice text p n = cs.flatten := by
  unfold gramBreak at hb
  simp only [not_or, not_lt, ge_iff_le, gt_iff_lt, not_le] at hb
  obtain ⟨hne, hle, hlt⟩ := hb
  have h1 : CalByteOffsetToRunOffset text p = runeOffset text p := by
    rcases cal_cases text (p : Int) (by omega) with h | h
    · omega
    · simpa using h
  have hslice : ∀ c : Nat, CalByteOffsetToRunOffset text p < c → c ≤ text.length →
      (text.take c).drop (CalByteOffsetToRunOffset text p) ≠ [] := by
    intro c hc1 hc2 hnil
    have := congrArg List.length hnil
    simp only [List.length_drop, List.length_take, List.length_nil] at this
    omega
  rcases cal_cases text ((p : Int) + n) (by omega) with h | h
  · have hlt2 : CalByteOffsetToRunOffset text p < CalByteOffsetToRunOffset text ((p : Int) + n) := by
      omega
    refine ⟨hlt2, hle, ?_, (runes text).drop p, fun c hc => List.mem_of_mem_drop hc, ?_⟩
    · exact hslice _ hlt2 hle
    · unfold gramSlice
      rw [h, h1]
      exact slice_runeOffset_end text p
  · have hpk : p ≤ ((p : Int) + n).toNat := by omega
    have hmono := runeOffset_mono text p _ hpk
    have hlt2 : CalByteOffsetToRunOffset text p < CalByteOffsetToRunOffset text ((p : Int) + n) := by
      omega
    refine ⟨hlt2, hle, hslice _ hlt2 hle, ((runes text).take ((p : Int) + n).toNat).drop p,
      fun c hc => List.mem_of_mem_take (List.mem_of_mem_drop hc), ?_⟩
    unfold gramSlice
    rw [h, h1]
    exact slice_runeOffset text p _ hpk

theorem mem_mapKeys_mapStore (m : GoMap) (k : GoString) (v : Int) (x : GoString)
    (hx : x ∈ mapKeys (mapStore m k v)) : x = k ∨ x ∈ mapKeys m := by
  induction m with
  | nil =>
    simp only [mapStore, mapKeys, List.map_cons, List.map_nil, List.mem_singleton] at hx
    exact Or.inl hx
  | cons e m ih =>
    obtain ⟨k', v'⟩ := e
    by_cases hk : k' = k
    · simp only [mapStore, hk, if_true, mapKeys, List.map_cons, List.mem_cons] at hx ⊢
      rcases hx with h | h
      · exact Or.inl h
      · exact Or.inr (Or.inr h)
    · simp only [mapStore, hk, if_false, mapKeys, List.map_cons, List.mem_cons] at hx ⊢
      rcases hx with h | h
      · exact Or.inr (Or.inl h)
      · rcases ih h with h2 | h2
        · exact Or.inl h2
        · exact Or.inr (Or.inr h2)

/-- The loop of `generateNthGrams` ends without a failure, and it keeps every
property of the keys that the slices it takes have. -/
theorem gramLoop_inv (P : GoString → Prop) (text : GoString) (n : Int) (hn : 1 ≤ n)
    (hP : ∀ p : Nat, ¬ gramBreak text p n → P (gramSlice text p n)) :
    ∀ (ps : List Nat) (m : GoMap), (∀ k ∈ mapKeys m, P k) →
      ∃ m2, gramLoop text n ps m = some m2 ∧ ∀ k ∈ mapKeys m2, P k := by
  intro ps
  induction ps with
  | nil => intro m hm; exact ⟨m, rfl, hm⟩
  | cons p ps ih =>
    intro m hm
    by_cases hb : gramBreak text p n
    · refine ⟨m, ?_, hm⟩
      unfold gramBreak at hb
      simp only [gramLoop]
      rw [if_pos hb]
    · have hs := gram_spec text p n hn hb
      have hnot : ¬ CalByteOffsetToRunOffset text ((p : Int) + n) <
          CalByteOffsetToRunOffset text p := by omega
      have hb2 := hb
      unfold gramBreak at hb2
      simp only [gramLoop]
      rw [if_neg hb2, if_neg hnot]
      by_cases hsp : (text.take (CalByteOffsetToRunOffset text ((p : Int) + n))).drop
          (CalByteOffsetToRunOffset text p) = space
      · rw [if_pos hsp]; exact ih m hm
      · rw [if_neg hsp]
        apply ih
        intro k hk
        rcases mem_mapKeys_mapStore _ _ _ _ hk with h | h
        · rw [h]; exact hP p hb
        · exact hm k h

/-! ## The gram generator ends without a failure -/

theorem generateNthGrams_inv (P : GoString → Prop) (token : GoString) (n : Int) (hn : 1 ≤ n)
    (hP : ∀ p : Nat, ¬ gramBreak (padToken token) p n → P (gramSlice (padToken token) p n))
    (m : GoMap) (hm : ∀ k ∈ mapKeys m, P k) :
    ∃ m2, generateNthGrams m token n = some m2 ∧ ∀ k ∈ mapKeys m2, P k :=
  gramLoop_inv P (padToken token) n hn hP _ m hm

theorem depthLoop_inv (P : GoString → Prop) (token : GoString)
    (hP : ∀ (n : Int) (p : Nat), 1 ≤ n → ¬ gramBreak (padToken token) p n →
      P (gramSlice (padToken token) p n)) :
    ∀ (is : List Nat), (∀ i ∈ is, 1 ≤ i) → ∀ m : GoMap, (∀ k ∈ mapKeys m, P k) →
      ∃ m2, depthLoop token is m = some m2 ∧ ∀ k ∈ mapKeys m2, P k := by
  intro is
  induction is with
  | nil => intro _ m hm; exact ⟨m, rfl, hm⟩
  | cons i is ih =>
    intro his m hm
    have hi : (1 : Int) ≤ (i : Int) := by
      have := his i (List.mem_cons_self _ _)
      omega
    obtain ⟨m1, h1, hm1⟩ := generateNthGrams_inv P token i hi (fun p => hP i p hi) m hm
    obtain ⟨m2, h2, hm2⟩ := ih (fun j hj => his j (List.mem_cons_of_mem _ hj)) m1 hm1
    refine ⟨m2, ?_, hm2⟩
    simp only [depthLoop, h1]
    exact h2

/-- Inside the range of `int` the wrapped value is the exact one. -/
theorem wrapInt_of_range (x : Int) (h1 : MinInt ≤ x) (h2 : x ≤ MaxInt) : wrapInt x = x := by
  unfold wrapInt
  unfold MinInt at h1
  unfold MaxInt at h2
  omega

/-- For an `int` other than `MaxInt - 1` the bound `gramDepth+1` of the loop
of `analyseToken` is not `MaxInt`. -/
theorem wrap_succ_ne_max (gramDepth : Int) (h1 : MinInt ≤ gramDepth) (h2 : gramDepth ≤ MaxInt)
    (h3 : gramDepth ≠ MaxInt - 1) : wrapInt (gramDepth + 1) ≠ MaxInt := by
  unfold wrapInt
  unfold MinInt at h1
  unfold MaxInt at h2 h3 ⊢
  omega

/-- A property of all grams holds for the keys of the map that `analyseToken`
returns, if it returns one; and it returns one where its loop ends. -/
theorem analyseToken_inv (P : GoString → Prop) (token : GoString) (gramDepth : Int)
    (hP : ∀ (n : Int) (p : Nat), 1 ≤ n → ¬ gramBreak (padToken token) p n →
      P (gramSlice (padToken token) p n))
    (m : GoMap) (hm : ∀ k ∈ mapKeys m, P k) :
    (∀ m2, analyseToken m token gramDepth = some m2 → ∀ k ∈ mapKeys m2, P k) ∧
    (wrapInt (gramDepth + 1) ≠ MaxInt → ∃ m2, analyseToken m token gramDepth = some m2) := by
  unfold analyseToken
  by_cases h0 : token.length = 0
  · rw [if_pos h0]
    refine ⟨fun m2 h2 => ?_, fun _ => ⟨m, rfl⟩⟩
    cases h2
    exact hm
  · rw [if_neg h0]
    by_cases hw : wrapInt (gramDepth + 1) = MaxInt
    · rw [if_pos hw]
      exact ⟨fun m2 h2 => (by cases h2), fun h => absurd hw h⟩
    · rw [if_neg hw]
      obtain ⟨m3, h3, hm3⟩ := depthLoop_inv P token hP
        (List.range' 1 (wrapInt (gramDepth + 1)).toNat) (fun i hi => by
          obtain ⟨j, _, rfl⟩ := List.mem_range'.1 hi
          omega) m hm
      refine ⟨fun m2 h2 => ?_, fun _ => ⟨m3, h3⟩⟩
      rw [h3] at h2
      cases h2
      exact hm3

theorem tokenLoop_inv (P : GoString → Prop) (gramDepth : Int) :
    ∀ (tokens : List GoString),
      (∀ token ∈ tokens, ∀ (n : Int) (p : Nat), 1 ≤ n → ¬ gramBreak (padToken token) p n →
        P (gramSlice (padToken token) p n)) →
      ∀ m : GoMap, (∀ k ∈ mapKeys m, P k) →
      (∀ m2, tokenLoop gramDepth tokens m = some m2 → ∀ k ∈ mapKeys m2, P k) ∧
      (wrapInt (gramDepth + 1) ≠ MaxInt → ∃ m2, tokenLoop gramDepth tokens m = some m2) := by
  intro tokens
  induction tokens with
  | nil =>
    intro _ m hm
    refine ⟨fun m2 h2 => ?_, fun _ => ⟨m, rfl⟩⟩
    simp only [tokenLoop] at h2
    cases h2
    exact hm
  | cons token tokens ih =>
    intro hP m hm
    have hA := analyseToken_inv P token gramDepth (hP token (List.mem_cons_self _ _)) m hm
    have ih2 := ih (fun t ht => hP t (List.mem_cons_of_mem _ ht))
    constructor
    · intro m2 h2
      simp only [tokenLoop] at h2
      cases h1 : analyseToken m token gramDepth with
      | none => rw [h1] at h2; cases h2
      | some m1 =>
        rw [h1] at h2
        exact (ih2 m1 (hA.1 m1 h1)).1 m2 h2
    · intro hw
      obtain ⟨m1, h1⟩ := hA.2 hw
      obtain ⟨m2, h2⟩ := (ih2 m1 (hA.1 m1 h1)).2 hw
      refine ⟨m2, ?_⟩
      simp only [tokenLoop, h1]
      exact h2

/-- C9, as stated, fails: at the gram depth `MaxInt - 1` (9223372036854775806)
and the text "ab" `CreateOccurenceMap` returns no map.  The bound
`gramDepth+1` of the loop of `analyseToken` is `MaxInt`, the condition
`i <= gramDepth+1` holds for every `int`, and `i` goes on through the negative
values; `generateNthGrams` called with `n = -3` fails: at `p = 3` the offsets
in the padded token " ab " are `p1 = 3` and `pn = 0`, no test before the slice
holds, and the slice `text[3:0]` is out of range. -/
theorem occurrence_map_total_counterexample :
    CreateOccurenceMap (str "ab") (MaxInt - 1) = none ∧
    MinInt ≤ MaxInt - 1 ∧ MaxInt - 1 ≤ MaxInt ∧
    generateNthGrams [] (str "ab") (-3) = none ∧
    CalByteOffsetToRunOffset (padToken (str "ab")) (3 : Nat) = 3 ∧
    CalByteOffsetToRunOffset (padToken (str "ab")) (((3 : Nat) : Int) + -3) = 0 ∧
    ¬ gramBreak (padToken (str "ab")) 3 (-3) := by
  refine ⟨by decide, by decide, by decide, by decide, by decide, by decide, ?_⟩
  unfold gramBreak
  decide

/-- C9, amended: for every input string, valid UTF-8 or not, and every gram
depth (an `int`) other than `MaxInt - 1`, `CreateOccurenceMap` returns a map
(no slice expression fails and every loop ends); and wherever
`generateNthGrams`, called with `n >= 1`, passes the tests before the slice
`text[p1:pn]` of its padded text, the offsets satisfy
`0 <= p1 < pn <= len(text)`. -/
theorem occurrence_map_total (text : GoString) (gramDepth : Int)
    (hlo : MinInt ≤ gramDepth) (hhi : gramDepth ≤ MaxInt) (hne : gramDepth ≠ MaxInt - 1) :
    (∃ m, CreateOccurenceMap text gramDepth = some m) ∧
    ∀ (padded : GoString) (p : Nat) (n : Int), 1 ≤ n → ¬ gramBreak padded p n →
      0 ≤ CalByteOffsetToRunOffset padded p ∧
      CalByteOffsetToRunOffset padded p < CalByteOffsetToRunOffset padded ((p : Int) + n) ∧
      CalByteOffsetToRunOffset padded ((p : Int) + n) ≤ padded.length := by
  constructor
  · exact (tokenLoop_inv (fun _ => True) gramDepth (Split 0x20 (cleanText text))
      (fun _ _ _ _ _ _ => trivial) [] (fun _ _ => trivial)).2
      (wrap_succ_ne_max gramDepth hlo hhi hne)
  · intro padded p n hn hb
    have h := gram_spec padded p n hn hb
    exact ⟨Nat.zero_le _, h.1, h.2.1⟩

/-- C9, amended, at the invalid byte string C3 28 FF 61 E2 82 with depth 2,
and at its slice for `p = 0`, `n = 2` (the bytes C3 28). -/
theorem occurrence_map_total_witness :
    (MinInt ≤ 2 ∧ (2 : Int) ≤ MaxInt ∧ (2 : Int) ≠ MaxInt - 1) ∧
    (∃ m, CreateOccurenceMap [0xC3, 0x28, 0xFF, 0x61, 0xE2, 0x82] 2 = some m) ∧
    (CalByteOffsetToRunOffset [0xC3, 0x28, 0xFF, 0x61, 0xE2, 0x82] (0 : Nat) <
        CalByteOffsetToRunOffset [0xC3, 0x28, 0xFF, 0x61, 0xE2, 0x82] (((0 : Nat) : Int) + 2) ∧
      CalByteOffsetToRunOffset [0xC3, 0x28, 0xFF, 0x61, 0xE2, 0x82] (((0 : Nat) : Int) + 2) ≤
        [0xC3, 0x28, 0xFF, 0x61, 0xE2, 0x82].length) :=
  ⟨⟨by decide, by decide, by decide⟩,
   (occurrence_map_total [0xC3, 0x28, 0xFF, 0x61, 0xE2, 0x82] 2
      (by decide) (by decide) (by decide)).1,
   ((occurrence_map_total [0xC3, 0x28, 0xFF, 0x61, 0xE2, 0x82] 2
      (by decide) (by decide) (by decide)).2
      [0xC3, 0x28, 0xFF, 0x61, 0xE2, 0x82] 0 2 (by decide) (by unfold gramBreak; decide)).2⟩

/-! ## `cleanText` and `strings.Split` keep a text valid -/

theorem AsciiEdit.refl (s : GoString) : AsciiEdit s s := by
  induction s with
  | nil => exact AsciiEdit.done
  | cons x s ih => exact AsciiEdit.keep x s s ih

theorem AsciiEdit.append_ascii : ∀ (old new : GoString), (∀ b ∈ old, b < 0x80) →
    (∀ b ∈ new, b < 0x80) → new.length ≤ old.length → ∀ s1 s2 : GoString, AsciiEdit s1 s2 →
    AsciiEdit (old ++ s1) (new ++ s2) := by
  intro old
  induction old with
  | nil =>
    intro new _ _ hlen s1 s2 h
    have : new = [] := List.length_eq_zero.1 (Nat.le_zero.1 hlen)
    subst this
    exact h
  | cons x old ih =>
    intro new ho hn hlen s1 s2 h
    have hx : x < 0x80 := ho x (List.mem_cons_self _ _)
    have ho2 : ∀ b ∈ old, b < 0x80 := fun b hb => ho b (List.mem_cons_of_mem _ hb)
    rcases new with _ | ⟨y, new⟩
    · exact AsciiEdit.del x _ _ hx (ih [] ho2 (by simp) (by simp) s1 s2 h)
    · have hy : y < 0x80 := hn y (List.mem_cons_self _ _)
      have hn2 : ∀ b ∈ new, b < 0x80 := fun b hb => hn b (List.mem_cons_of_mem _ hb)
      simp only [List.length_cons] at hlen
      exact AsciiEdit.subst x y _ _ hx hy (ih new ho2 hn2 (by omega) s1 s2 h)

theorem hasPrefix_eq : ∀ (s p : GoString), HasPrefix s p = true → s = p ++ s.drop p.length := by
  intro s
  induction s with
  | nil =>
    intro p h
    rcases p with _ | ⟨q, p⟩
    · rfl
    · simp [HasPrefix] at h
  | cons c s ih =>
    intro p h
    rcases p with _ | ⟨q, p⟩
    · rfl
    · simp only [HasPrefix, Bool.and_eq_true, decide_eq_true_eq] at h
      obtain ⟨hc, hp⟩ := h
      subst hc
      simp only [List.length_cons, List.drop_succ_cons, List.cons_append]
      rw [← ih p hp]

theorem replaceLoop_edit (old new : GoString) (ho : ∀ b ∈ old, b < 0x80)
    (hn : ∀ b ∈ new, b < 0x80) (hlen : new.length ≤ old.length) :
    ∀ (fuel : Nat) (s : GoString), AsciiEdit s (replaceLoop old new fuel s) := by
  intro fuel
  induction fuel with
  | zero => intro s; exact AsciiEdit.refl s
  | succ fuel ih =>
    intro s
    rcases s with _ | ⟨c, t⟩
    · exact AsciiEdit.done
    · simp only [replaceLoop]
      by_cases hp : HasPrefix (c :: t) old = true
      · rw [if_pos hp]
        have he := hasPrefix_eq _ _ hp
        have h2 := AsciiEdit.append_ascii old new ho hn hlen _ _
          (ih ((c :: t).drop old.length))
        rw [← he] at h2
        exact h2
      · rw [if_neg hp]
        exact AsciiEdit.keep c _ _ (ih t)

theorem cleanSteps_ascii : ∀ step ∈ cleanSteps,
    (∀ b ∈ step.1, b < 0x80) ∧ (∀ b ∈ step.2, b < 0x80) ∧ step.2.length ≤ step.1.length := by
  decide

theorem AsciiEdit.of_high : ∀ (c : GoString), (∀ b ∈ c, 0x80 ≤ b) → ∀ rest s2 : GoString,
    AsciiEdit (c ++ rest) s2 → ∃ s3, s2 = c ++ s3 ∧ AsciiEdit rest s3 := by
  intro c
  induction c with
  | nil => intro _ rest s2 h; exact ⟨s2, rfl, h⟩
  | cons x c ih =>
    intro hc rest s2 h
    have hx : 0x80 ≤ x := hc x (List.mem_cons_self _ _)
    have hc2 : ∀ b ∈ c, 0x80 ≤ b := fun b hb => hc b (List.mem_cons_of_mem _ hb)
    rw [List.cons_append] at h
    cases h with
    | keep _ _ s2 h2 =>
      obtain ⟨s3, rfl, h3⟩ := ih hc2 rest s2 h2
      exact ⟨s3, rfl, h3⟩
    | subst _ y _ s2 hx2 _ _ => omega
    | del _ _ _ hx2 _ => omega

/-- Editing single ASCII bytes keeps a string of whole runes a string of whole
runes. -/
theorem AsciiEdit.whole : ∀ (cs : List GoString), (∀ c ∈ cs, Whole c) → ∀ s2 : GoString,
    AsciiEdit cs.flatten s2 → ∃ ds : List GoString, (∀ d ∈ ds, Whole d) ∧ s2 = ds.flatten := by
  intro cs
  induction cs with
  | nil =>
    intro _ s2 h
    simp only [List.flatten_nil] at h
    cases h
    exact ⟨[], by simp, rfl⟩
  | cons c cs ih =>
    intro hcs s2 h
    have hc := hcs c (List.mem_cons_self _ _)
    have hcs2 : ∀ d ∈ cs, Whole d := fun d hd => hcs d (List.mem_cons_of_mem _ hd)
    rw [List.flatten_cons] at h
    rcases hc.bytes with ⟨a, rfl, ha⟩ | hhigh
    · rw [List.singleton_append] at h
      cases h with
      | keep _ _ s3 h3 =>
        obtain ⟨ds, hds, rfl⟩ := ih hcs2 s3 h3
        refine ⟨[a] :: ds, ?_, rfl⟩
        intro d hd
        rcases List.mem_cons.1 hd with rfl | hd
        · exact hc
        · exact hds d hd
      | subst _ y _ s3 _ hy h3 =>
        obtain ⟨ds, hds, rfl⟩ := ih hcs2 s3 h3
        refine ⟨[y] :: ds, ?_, rfl⟩
        intro d hd
        rcases List.mem_cons.1 hd with rfl | hd
        · exact whole_ascii y hy
        · exact hds d hd
      | del _ _ _ _ h3 => exact ih hcs2 s2 h3
    · obtain ⟨s3, rfl, h3⟩ := AsciiEdit.of_high c hhigh _ s2 h
      obtain ⟨ds, hds, rfl⟩ := ih hcs2 s3 h3
      refine ⟨c :: ds, ?_, rfl⟩
      intro d hd
      rcases List.mem_cons.1 hd with rfl | hd
      · exact hc
      · exact hds d hd

theorem AsciiEdit.valid (s1 s2 : GoString) (h : AsciiEdit s1 s2) (hv : ValidString s1 = true) :
    ValidString s2 = true := by
  obtain ⟨cs, hcs, rfl⟩ := (valid_iff_exists s1).1 hv
  exact (valid_iff_exists s2).2 (AsciiEdit.whole cs hcs s2 h)

/-- The function `cleanText` keeps a valid text valid. -/
theorem cleanText_valid (text : GoString) (hv : ValidString text = true) :
    ValidString (cleanText text) = true := by
  unfold cleanText
  have key : ∀ (steps : List (GoString × GoString)), (∀ step ∈ steps, step ∈ cleanSteps) →
      ∀ t : GoString, ValidString t = true →
      ValidString (steps.foldl (fun t step => Replace t step.1 step.2) t) = true := by
    intro steps
    induction steps with
    | nil => intro _ t ht; exact ht
    | cons step steps ih =>
      intro hmem t ht
      rw [List.foldl_cons]
      apply ih (fun st hst => hmem st (List.mem_cons_of_mem _ hst))
      obtain ⟨h1, h2, h3⟩ := cleanSteps_ascii step (hmem step (List.mem_cons_self _ _))
      exact AsciiEdit.valid _ _ (replaceLoop_edit step.1 step.2 h1 h2 h3 _ t) ht
  exact key cleanSteps (fun _ h => h) text hv

theorem Split_ne_nil (sep : Nat) (s : GoString) : ∃ h r, Split sep s = h :: r := by
  induction s with
  | nil => exact ⟨[], [], rfl⟩
  | cons c t ih =>
    obtain ⟨h, r, hr⟩ := ih
    by_cases hc : c = sep
    · exact ⟨[], Split sep t, by simp only [Split, hc, if_true]⟩
    · exact ⟨c :: h, r, by simp only [Split, hc, if_false, hr]⟩

/-- Bytes other than the separator stay in front of the first token. -/
theorem Split_append (sep : Nat) (c rest : GoString) (hc : ∀ b ∈ c, b ≠ sep) :
    ∃ h r, Split sep rest = h :: r ∧ Split sep (c ++ rest) = (c ++ h) :: r := by
  induction c with
  | nil =>
    obtain ⟨h, r, hr⟩ := Split_ne_nil sep rest
    exact ⟨h, r, hr, hr⟩
  | cons x c ih =>
    obtain ⟨h, r, hr, hr2⟩ := ih (fun b hb => hc b (List.mem_cons_of_mem _ hb))
    have hx : ¬ x = sep := hc x (List.mem_cons_self _ _)
    refine ⟨h, r, hr, ?_⟩
    have : Split sep (x :: (c ++ rest)) = (x :: (c ++ h)) :: r := by
      simp only [Split, hx, if_false, hr2]
    exact this

theorem valid_nil : ValidString [] = true := rfl

theorem valid_whole_append (c s : GoString) (hc : Whole c) (hs : ValidString s = true) :
    ValidString (c ++ s) = true := by
  obtain ⟨cs, hcs, rfl⟩ := (valid_iff_exists s).1 hs
  refine (valid_iff_exists _).2 ⟨c :: cs, ?_, rfl⟩
  intro d hd
  rcases List.mem_cons.1 hd with rfl | hd
  · exact hc
  · exact hcs d hd

/-- The tokens of a string of whole runes are valid. -/
theorem Split_whole : ∀ (cs : List GoString), (∀ c ∈ cs, Whole c) →
    ∀ t ∈ Split 0x20 cs.flatten, ValidString t = true := by
  intro cs
  induction cs with
  | nil =>
    intro _ t ht
    simp only [List.flatten_nil, Split, List.mem_singleton] at ht
    rw [ht]; rfl
  | cons c cs ih =>
    intro hcs t ht
    have hc := hcs c (List.mem_cons_self _ _)
    have ih2 := ih (fun d hd => hcs d (List.mem_cons_of_mem _ hd))
    rw [List.flatten_cons] at ht
    by_cases hsp : c = [0x20]
    · subst hsp
      simp only [List.singleton_append, Split, if_true, List.mem_cons] at ht
      rcases ht with rfl | ht
      · rfl
      · exact ih2 t ht
    · have hne : ∀ b ∈ c, b ≠ 0x20 := by
        rcases hc.bytes with ⟨a, rfl, _⟩ | hhigh
        · intro b hb
          simp only [List.mem_singleton] at hb
          subst hb
          intro h
          exact hsp (by rw [h])
        · intro b hb
          have := hhigh b hb
          omega
      obtain ⟨h, r, hr, hr2⟩ := Split_append 0x20 c cs.flatten hne
      rw [hr2] at ht
      rcases List.mem_cons.1 ht with rfl | ht
      · exact valid_whole_append c h hc (ih2 h (by rw [hr]; exact List.mem_cons_self _ _))
      · exact ih2 t (by rw [hr]; exact List.mem_cons_of_mem _ ht)

/-- The tokens of a valid text are valid. -/
theorem Split_valid (s : GoString) (hv : ValidString s = true) :
    ∀ t ∈ Split 0x20 s, ValidString t = true := by
  obtain ⟨cs, hcs, rfl⟩ := (valid_iff_exists s).1 hv
  exact Split_whole cs hcs

theorem valid_append (s1 s2 : GoString) (h1 : ValidString s1 = true)
    (h2 : ValidString s2 = true) : ValidString (s1 ++ s2) = true := by
  obtain ⟨cs, hcs, rfl⟩ := (valid_iff_exists s1).1 h1
  obtain ⟨ds, hds, rfl⟩ := (valid_iff_exists s2).1 h2
  refine (valid_iff_exists _).2 ⟨cs ++ ds, ?_, by simp⟩
  intro d hd
  rcases List.mem_append.1 hd with h | h
  · exact hcs d h
  · exact hds d h

/-- The padded token of a valid token is valid. -/
theorem padToken_valid (token : GoString) (hv : ValidString token = true) :
    ValidString (padToken token) = true := by
  unfold padToken
  by_cases h : CalByteOffsetToRunOffset token 1 ≠ 1
  · simp only [if_pos h, List.nil_append, List.append_nil]
    exact hv
  · simp only [if_neg h]
    exact valid_append _ _ (valid_append _ _ (by decide) hv) (by decide)

/-- C8: for every valid UTF-8 text and every depth, every key of the map
that `CreateOccurenceMap` returns is a non-empty valid UTF-8 string, that is a
sequence of one or more whole code points: no gram starts or ends inside a
multi-byte character.  A map is returned at every depth (an `int`) other than
`MaxInt - 1`, where the loop of `analyseToken` cannot end. -/
theorem grams_are_whole_runes (text : GoString) (gramDepth : Int)
    (hv : ValidString text = true) :
    (∀ m, CreateOccurenceMap text gramDepth = some m →
      ∀ k ∈ mapKeys m, k ≠ [] ∧ ValidString k = true) ∧
    (MinInt ≤ gramDepth → gramDepth ≤ MaxInt → gramDepth ≠ MaxInt - 1 →
      ∃ m, CreateOccurenceMap text gramDepth = some m) := by
  have hinv := tokenLoop_inv (fun k => k ≠ [] ∧ ValidString k = true) gramDepth
    (Split 0x20 (cleanText text)) ?_ [] ?_
  · exact ⟨hinv.1, fun hlo hhi hne => hinv.2 (wrap_succ_ne_max gramDepth hlo hhi hne)⟩
  · intro token htoken n p hn hb
    have hvt : ValidString token = true := Split_valid _ (cleanText_valid text hv) token htoken
    have hvp := padToken_valid token hvt
    obtain ⟨_, _, hne, cs, hcs, hslice⟩ := gram_spec (padToken token) p n hn hb
    refine ⟨hne, ?_⟩
    rw [hslice]
    exact (valid_iff_exists _).2 ⟨cs, fun c hc => (valid_iff _).1 hvp c (hcs c hc), rfl⟩
  · intro k hk
    simp [mapKeys] at hk

/-- C8 at the text "café" (bytes 63 61 66 C3 A9) with depth 1: its grams
are "c", "a", "f", "é", " c", "ca", "af", "fé", "é ". -/
theorem grams_are_whole_runes_witness :
    ValidString [0x63, 0x61, 0x66, 0xC3, 0xA9] = true ∧
    (∀ m, CreateOccurenceMap [0x63, 0x61, 0x66, 0xC3, 0xA9] 1 = some m →
      ∀ k ∈ mapKeys m, k ≠ [] ∧ ValidString k = true) ∧
    ∃ m, CreateOccurenceMap [0x63, 0x61, 0x66, 0xC3, 0xA9] 1 = some m :=
  ⟨by decide, (grams_are_whole_runes [0x63, 0x61, 0x66, 0xC3, 0xA9] 1 (by decide)).1,
   (grams_are_whole_runes [0x63, 0x61, 0x66, 0xC3, 0xA9] 1 (by decide)).2
     (by decide) (by decide) (by decide)⟩

/-! ## Texts of ASCII characters -/

theorem runes_ascii (s : GoString) (h : ∀ b ∈ s, b < 0x80) : runes s = s.map (fun b => [b]) := by
  induction s with
  | nil => rfl
  | cons a t ih =>
    have ha : a < 0x80 := h a (List.mem_cons_self _ _)
    rw [runes_cons, decode_ascii a t ha]
    simp only [List.take_succ_cons, List.take_zero, List.drop_succ_cons, List.drop_zero,
      List.map_cons]
    rw [ih (fun b hb => h b (List.mem_cons_of_mem _ hb))]

theorem runeCount_ascii (s : GoString) (h : ∀ b ∈ s, b < 0x80) :
    RuneCountInString s = s.length := by
  rw [runeCount_eq, runes_ascii s h, List.length_map]

theorem decodeLast_ascii (s : GoString) (hne : s ≠ []) (h : ∀ b ∈ s, b < 0x80) :
    (DecodeLastRuneInString s).1 ≠ RuneError := by
  have hlen : ¬ s.length = 0 := fun h0 => hne (List.length_eq_zero.1 h0)
  have hlt : s.length - 1 < s.length := by omega
  have hr : s.getD (s.length - 1) 0 < RuneSelf := by
    rw [List.getD_eq_getElem _ _ hlt]
    exact h _ (List.getElem_mem hlt)
  unfold DecodeLastRuneInString
  rw [if_neg hlen]
  simp only [hr, if_true]
  simp only [RuneSelf] at hr
  simp only [RuneError]
  omega

/-- On a string of ASCII characters a rune offset inside the string is the
byte offset. -/
theorem cal_ascii (s : GoString) (h : ∀ b ∈ s, b < 0x80) (k : Nat) :
    CalByteOffsetToRunOffset s (k : Int) = if k < s.length then k else s.length := by
  unfold CalByteOffsetToRunOffset
  rw [runeCount_ascii s h]
  by_cases hk : k < s.length
  · have h1 : ¬ ((k : Int) < 0 ∨ (s.length : Int) ≤ (k : Int)) := by omega
    rw [if_neg h1, if_pos hk]
    by_cases h0 : (k : Int) = 0
    · rw [if_pos h0]; omega
    · rw [if_neg h0]
      have hk0 : k ≠ 0 := by omega
      have hrange : List.range' (k : Int).toNat (s.length - (k : Int).toNat) =
          k :: List.range' (k + 1) (s.length - k - 1) := by
        have : (k : Int).toNat = k := Int.toNat_natCast k
        rw [this]
        have : s.length - k = (s.length - k - 1) + 1 := by omega
        rw [this, List.range'_succ]
        simp
      rw [hrange]
      have htake : ∀ b ∈ s.take k, b < 0x80 := fun b hb => h b (List.mem_of_mem_take hb)
      have hne : s.take k ≠ [] := by
        intro hnil
        have := congrArg List.length hnil
        simp only [List.length_take, List.length_nil] at this
        omega
      have hp : (decide ((DecodeLastRuneInString (s.take k)).1 ≠ RuneError) &&
          decide ((RuneCountInString (s.take k) : Int) = (k : Int))) = true := by
        simp only [Bool.and_eq_true, decide_eq_true_eq]
        refine ⟨decodeLast_ascii _ hne htake, ?_⟩
        rw [runeCount_ascii _ htake, List.length_take]
        have : min k s.length = k := by omega
        rw [this]
      rw [List.find?_cons]
      simp only [hp]
  · have h1 : ((k : Int) < 0 ∨ (s.length : Int) ≤ (k : Int)) := by omega
    rw [if_pos h1, if_neg hk]

/-- A non-empty token of ASCII characters is padded on both sides. -/
theorem padToken_ascii (token : GoString) (hne : token ≠ []) (h : ∀ b ∈ token, b < 0x80) :
    padToken token = space ++ token ++ space := by
  have hlen : 0 < token.length := List.length_pos.2 hne
  have h1 : CalByteOffsetToRunOffset token 1 = 1 := by
    have := cal_ascii token h 1
    simp only [Nat.cast_one] at this
    rw [this]
    split_ifs <;> omega
  unfold padToken
  simp only [h1, ne_eq, not_true_eq_false, if_false]

theorem mapFind_mapStore (m : GoMap) (k : GoString) (v : Int) (g : GoString) :
    mapFind (mapStore m k v) g = if k = g then some v else mapFind m g := by
  induction m with
  | nil => simp only [mapStore, mapFind]
  | cons e m ih =>
    obtain ⟨k2, v2⟩ := e
    by_cases hk : k2 = k
    · subst hk
      simp only [mapStore, if_true, mapFind]
      by_cases hg : k2 = g
      · simp only [hg, if_true]
      · simp only [hg, if_false]
    · simp only [mapStore, hk, if_false, mapFind, ih]
      by_cases hg : k2 = g
      · have : ¬ k = g := fun h => hk (hg.trans h.symm)
        simp only [hg, if_true, this, if_false]
      · simp only [hg, if_false]

theorem mapGet_mapIncr (m : GoMap) (k g : GoString) :
    mapGet (mapIncr m k) g = mapGet m g + if k = g then 1 else 0 := by
  unfold mapIncr mapGet
  rw [mapFind_mapStore]
  by_cases hk : k = g
  · subst hk
    simp only [if_true]
  · simp only [hk, if_false, add_zero]

/-- On a padded token of ASCII characters the loop of `generateNthGrams` counts
every window of `k` bytes other than the single space. -/
theorem gramLoop_ascii (text : GoString) (h : ∀ b ∈ text, b < 0x80) (k : Nat) (hk : 1 ≤ k) :
    ∀ (ps : List Nat), (∀ p ∈ ps, p + k ≤ text.length) → ∀ m : GoMap,
      ∃ m2, gramLoop text (k : Int) ps m = some m2 ∧ ∀ g : GoString, mapGet m2 g =
        mapGet m g + if g = space then 0 else
          ((ps.filter (fun p => decide ((text.take (p + k)).drop p = g))).length : Int) := by
  intro ps
  induction ps with
  | nil => intro _ m; exact ⟨m, rfl, fun g => by simp⟩
  | cons p ps ih =>
    intro hps m
    have hp : p + k ≤ text.length := hps p (List.mem_cons_self _ _)
    have h1 : CalByteOffsetToRunOffset text (p : Int) = p := by
      rw [cal_ascii text h p, if_pos (by omega)]
    have h2 : CalByteOffsetToRunOffset text ((p : Int) + (k : Int)) = p + k := by
      have : (p : Int) + (k : Int) = ((p + k : Nat) : Int) := by push_cast; rfl
      rw [this, cal_ascii text h (p + k)]
      split_ifs <;> omega
    have hb : ¬ (p = p + k ∨ p + k > text.length ∨ p ≥ text.length) := by omega
    have hlt : ¬ (p + k < p) := by omega
    simp only [gramLoop, h1, h2]
    rw [if_neg hb, if_neg hlt]
    have ih2 := ih (fun q hq => hps q (List.mem_cons_of_mem _ hq))
    by_cases hsp : (text.take (p + k)).drop p = space
    · rw [if_pos hsp]
      obtain ⟨m2, hm2, hget⟩ := ih2 m
      refine ⟨m2, hm2, fun g => ?_⟩
      rw [hget g]
      by_cases hg : g = space
      · simp only [hg, if_true]
      · have : ¬ (text.take (p + k)).drop p = g := fun hh => hg (hh.symm.trans hsp)
        simp only [hg, if_false, List.filter_cons, this, decide_False, Bool.false_eq_true]
    · rw [if_neg hsp]
      obtain ⟨m2, hm2, hget⟩ := ih2 (mapIncr m ((text.take (p + k)).drop p))
      refine ⟨m2, hm2, fun g => ?_⟩
      rw [hget g, mapGet_mapIncr]
      by_cases hg : g = space
      · have : ¬ (text.take (p + k)).drop p = g := fun hh => hsp (hh.trans hg)
        simp only [hg, if_true, this, if_false, add_zero]
        simp only [hg] at this
        simp only [this, if_false, add_zero]
      · by_cases hw : (text.take (p + k)).drop p = g
        · simp only [hg, if_false, hw, if_true, List.filter_cons, decide_True, List.length_cons]
          push_cast
          ring
        · simp only [hg, if_false, hw, List.filter_cons, decide_False, Bool.false_eq_true,
            add_zero]

theorem generateNthGrams_ascii (token : GoString) (hne : token ≠ [])
    (h : ∀ b ∈ token, b < 0x80) (k : Nat) (hk : 1 ≤ k) (m : GoMap) :
    ∃ m2, generateNthGrams m token (k : Int) = some m2 ∧ ∀ g : GoString, mapGet m2 g =
      mapGet m g + if g ≠ space ∧ g.length = k then
        (occurrences g (space ++ token ++ space) : Int) else 0 := by
  have hT : ∀ b ∈ space ++ token ++ space, b < 0x80 := by
    intro b hb
    simp only [space, List.mem_append, List.mem_singleton] at hb
    rcases hb with (hb | hb) | hb
    · omega
    · exact h b hb
    · omega
  unfold generateNthGrams
  simp only [padToken_ascii token hne h, runeCount_ascii _ hT]
  have hU : (((space ++ token ++ space).length : Int) - ((k : Int) - 1)).toNat =
      (space ++ token ++ space).length + 1 - k := by omega
  rw [hU]
  obtain ⟨m2, hm2, hget⟩ := gramLoop_ascii (space ++ token ++ space) hT k hk
    (List.range ((space ++ token ++ space).length + 1 - k))
    (fun p hp => by have := List.mem_range.1 hp; omega) m
  refine ⟨m2, hm2, fun g => ?_⟩
  rw [hget g]
  by_cases hg : g = space
  · simp only [hg, if_true, ne_eq, not_true_eq_false, false_and, if_false]
  · by_cases hl : g.length = k
    · subst hl
      simp only [hg, if_false, ne_eq, not_false_eq_true, and_self, if_true, occurrences]
    · have hnil : (List.range ((space ++ token ++ space).length + 1 - k)).filter
          (fun p => decide (((space ++ token ++ space).take (p + k)).drop p = g)) = [] := by
        apply List.filter_eq_nil_iff.2
        intro p hp
        have hp2 := List.mem_range.1 hp
        simp only [decide_eq_true_eq]
        intro hw
        have := congrArg List.length hw
        simp only [List.length_drop, List.length_take] at this
        omega
      simp only [hg, if_false, hnil, List.length_nil, ne_eq, not_false_eq_true, hl, and_false,
        Nat.cast_zero]

theorem depthLoop_ascii (token : GoString) (hne : token ≠ []) (h : ∀ b ∈ token, b < 0x80) :
    ∀ (is : List Nat), is.Nodup → (∀ i ∈ is, 1 ≤ i) → ∀ m : GoMap,
      ∃ m2, depthLoop token is m = some m2 ∧ ∀ g : GoString, mapGet m2 g =
        mapGet m g + if g ≠ space ∧ g.length ∈ is then
          (occurrences g (space ++ token ++ space) : Int) else 0 := by
  intro is
  induction is with
  | nil => intro _ _ m; exact ⟨m, rfl, fun g => by simp⟩
  | cons i is ih =>
    intro hnd his m
    obtain ⟨hi, hnd2⟩ := List.nodup_cons.1 hnd
    obtain ⟨m1, hm1, hget1⟩ := generateNthGrams_ascii token hne h i
      (his i (List.mem_cons_self _ _)) m
    obtain ⟨m2, hm2, hget2⟩ := ih hnd2 (fun j hj => his j (List.mem_cons_of_mem _ hj)) m1
    refine ⟨m2, by simp only [depthLoop, hm1]; exact hm2, fun g => ?_⟩
    rw [hget2 g, hget1 g]
    by_cases hg : g = space
    · simp [hg]
    · by_cases hl : g.length = i
      · have : g.length ∉ is := by rw [hl]; exact hi
        simp [hg, hl, hi]
      · simp [hg, hl]

theorem analyseToken_ascii (token : GoString) (h : ∀ b ∈ token, b < 0x80) (gramDepth : Int)
    (hlo : MinInt ≤ gramDepth) (hhi : gramDepth < MaxInt - 1) (m : GoMap) :
    ∃ m2, analyseToken m token gramDepth = some m2 ∧ ∀ g : GoString, mapGet m2 g =
      mapGet m g + if token ≠ [] ∧ g ≠ space ∧ 1 ≤ g.length ∧ (g.length : Int) ≤ gramDepth + 1
        then (occurrences g (space ++ token ++ space) : Int) else 0 := by
  unfold analyseToken
  by_cases h0 : token.length = 0
  · have : token = [] := List.length_eq_zero.1 h0
    rw [if_pos h0]
    exact ⟨m, rfl, fun g => by simp [this]⟩
  · have hne : token ≠ [] := fun hh => h0 (by rw [hh]; rfl)
    have hwrap : wrapInt (gramDepth + 1) = gramDepth + 1 :=
      wrapInt_of_range _ (by unfold MinInt at hlo ⊢; omega) (by unfold MaxInt at hhi ⊢; omega)
    have hmax : ¬ gramDepth + 1 = MaxInt := by omega
    rw [if_neg h0, hwrap, if_neg hmax]
    obtain ⟨m2, hm2, hget⟩ := depthLoop_ascii token hne h (List.range' 1 (gramDepth + 1).toNat)
      (List.nodup_range' _ _) (fun i hi => by
        obtain ⟨j, _, rfl⟩ := List.mem_range'.1 hi
        omega) m
    refine ⟨m2, hm2, fun g => ?_⟩
    rw [hget g]
    have hiff : g.length ∈ List.range' 1 (gramDepth + 1).toNat ↔
        (1 ≤ g.length ∧ (g.length : Int) ≤ gramDepth + 1) := by
      rw [List.mem_range'_1]
      omega
    simp only [hiff, hne, ne_eq, not_false_eq_true, true_and]

theorem tokenLoop_ascii (gramDepth : Int) (hlo : MinInt ≤ gramDepth)
    (hhi : gramDepth < MaxInt - 1) : ∀ (tokens : List GoString),
    (∀ t ∈ tokens, ∀ b ∈ t, b < 0x80) → ∀ m : GoMap,
    ∃ m2, tokenLoop gramDepth tokens m = some m2 ∧ ∀ g : GoString, mapGet m2 g =
      mapGet m g + if g ≠ space ∧ 1 ≤ g.length ∧ (g.length : Int) ≤ gramDepth + 1 then
        ((((tokens.filter (fun t => decide (t ≠ []))).map
          (fun t => occurrences g (space ++ t ++ space))).sum : Nat) : Int) else 0 := by
  intro tokens
  induction tokens with
  | nil => intro _ m; exact ⟨m, rfl, fun g => by simp⟩
  | cons t tokens ih =>
    intro h m
    obtain ⟨m1, hm1, hget1⟩ :=
      analyseToken_ascii t (h t (List.mem_cons_self _ _)) gramDepth hlo hhi m
    obtain ⟨m2, hm2, hget2⟩ := ih (fun u hu => h u (List.mem_cons_of_mem _ hu)) m1
    refine ⟨m2, by simp only [tokenLoop, hm1]; exact hm2, fun g => ?_⟩
    rw [hget2 g, hget1 g]
    by_cases hc : g ≠ space ∧ 1 ≤ g.length ∧ (g.length : Int) ≤ gramDepth + 1
    · by_cases ht : t = []
      · simp [hc, ht]
      · have hc2 : t ≠ [] ∧ g ≠ space ∧ 1 ≤ g.length ∧ (g.length : Int) ≤ gramDepth + 1 :=
          ⟨ht, hc⟩
        rw [if_pos hc, if_pos hc2, if_pos hc]
        simp only [List.filter_cons, ht, ne_eq, not_false_eq_true, decide_True, if_true,
          List.map_cons, List.sum_cons]
        push_cast
        ring
    · have hc2 : ¬ (t ≠ [] ∧ g ≠ space ∧ 1 ≤ g.length ∧ (g.length : Int) ≤ gramDepth + 1) :=
        fun hh => hc hh.2
      rw [if_neg hc, if_neg hc2, if_neg hc]
      simp

theorem AsciiEdit.ascii (s1 s2 : GoString) (h : AsciiEdit s1 s2) (h1 : ∀ b ∈ s1, b < 0x80) :
    ∀ b ∈ s2, b < 0x80 := by
  induction h with
  | done => intro b hb; simp at hb
  | keep x s1 s2 _ ih =>
    intro b hb
    rcases List.mem_cons.1 hb with rfl | hb
    · exact h1 _ (List.mem_cons_self _ _)
    · exact ih (fun c hc => h1 c (List.mem_cons_of_mem _ hc)) b hb
  | subst x y s1 s2 _ hy _ ih =>
    intro b hb
    rcases List.mem_cons.1 hb with rfl | hb
    · exact hy
    · exact ih (fun c hc => h1 c (List.mem_cons_of_mem _ hc)) b hb
  | del x s1 s2 _ _ ih =>
    exact ih (fun c hc => h1 c (List.mem_cons_of_mem _ hc))

/-- The function `cleanText` keeps a text of ASCII characters one. -/
theorem cleanText_ascii (text : GoString) (h : ∀ b ∈ text, b < 0x80) :
    ∀ b ∈ cleanText text, b < 0x80 := by
  unfold cleanText
  have key : ∀ (steps : List (GoString × GoString)), (∀ step ∈ steps, step ∈ cleanSteps) →
      ∀ t : GoString, (∀ b ∈ t, b < 0x80) →
      ∀ b ∈ steps.foldl (fun t step => Replace t step.1 step.2) t, b < 0x80 := by
    intro steps
    induction steps with
    | nil => intro _ t ht; exact ht
    | cons step steps ih =>
      intro hmem t ht
      rw [List.foldl_cons]
      apply ih (fun st hst => hmem st (List.mem_cons_of_mem _ hst))
      obtain ⟨h1, h2, h3⟩ := cleanSteps_ascii step (hmem step (List.mem_cons_self _ _))
      exact AsciiEdit.ascii _ _ (replaceLoop_edit step.1 step.2 h1 h2 h3 _ t) ht
  exact key cleanSteps (fun _ h => h) text h

theorem mem_of_mem_Split (sep : Nat) (s : GoString) :
    ∀ t ∈ Split sep s, ∀ b ∈ t, b ∈ s := by
  induction s with
  | nil =>
    intro t ht b hb
    simp only [Split, List.mem_singleton] at ht
    rw [ht] at hb
    exact hb
  | cons x s ih =>
    intro t ht b hb
    by_cases hx : x = sep
    · simp only [Split, hx, if_true, List.mem_cons] at ht
      rcases ht with rfl | ht
      · simp at hb
      · exact List.mem_cons_of_mem _ (ih t ht b hb)
    · obtain ⟨h, r, hr⟩ := Split_ne_nil sep s
      simp only [Split, hx, if_false, hr, List.mem_cons] at ht
      rcases ht with rfl | ht
      · rcases List.mem_cons.1 hb with rfl | hb
        · exact List.mem_cons_self _ _
        · exact List.mem_cons_of_mem _ (ih h (by rw [hr]; exact List.mem_cons_self _ _) b hb)
      · exact List.mem_cons_of_mem _ (ih t (by rw [hr]; exact List.mem_cons_of_mem _ ht) b hb)

/-- A string with a byte from `0x80` on does not occur in an ASCII string. -/
theorem occurrences_eq_zero (g s : GoString) (hs : ∀ b ∈ s, b < 0x80)
    (hg : ¬ ∀ b ∈ g, b < 0x80) : occurrences g s = 0 := by
  unfold occurrences
  rw [List.length_eq_zero]
  apply List.filter_eq_nil_iff.2
  intro i _
  simp only [decide_eq_true_eq]
  intro hw
  apply hg
  intro b hb
  rw [← hw] at hb
  exact hs b (List.mem_of_mem_take (List.mem_of_mem_drop hb))

/-- On ASCII tokens the stated count may measure the gram in bytes. -/
theorem gramCount_eq (tokens : List GoString) (h : ∀ t ∈ tokens, ∀ b ∈ t, b < 0x80)
    (gramDepth : Int) (g : GoString) :
    (gramCount tokens gramDepth g : Int) =
      if g ≠ space ∧ 1 ≤ g.length ∧ (g.length : Int) ≤ gramDepth + 1 then
        ((((tokens.filter (fun t => decide (t ≠ []))).map
          (fun t => occurrences g (space ++ t ++ space))).sum : Nat) : Int) else 0 := by
  unfold gramCount
  by_cases hg : ∀ b ∈ g, b < 0x80
  · rw [runeCount_ascii g hg]
    by_cases hc : g ≠ space ∧ 1 ≤ g.length ∧ (g.length : Int) ≤ gramDepth + 1
    · rw [if_pos hc, if_pos ⟨hc.2.1, hc.2.2, hc.1⟩]
    · rw [if_neg hc, if_neg (fun hh => hc ⟨hh.2.2, hh.1, hh.2.1⟩)]
      rfl
  · have hzero : ((tokens.filter (fun t => decide (t ≠ []))).map
        (fun t => occurrences g (space ++ t ++ space))).sum = 0 := by
      apply List.sum_eq_zero
      intro x hx
      obtain ⟨t, ht, rfl⟩ := List.mem_map.1 hx
      apply occurrences_eq_zero _ _ _ hg
      intro b hb
      simp only [space, List.mem_append, List.mem_singleton] at hb
      rcases hb with (hb | hb) | hb
      · omega
      · exact h t (List.mem_of_mem_filter ht) b hb
      · omega
    rw [hzero]
    simp

theorem occurrences_singleton (c : Nat) (s : GoString) : occurrences [c] s = s.count c := by
  unfold occurrences
  induction s with
  | nil => rfl
  | cons x t ih =>
    simp only [List.length_cons, List.length_nil, zero_add, Nat.add_sub_cancel] at ih ⊢
    rw [List.range_succ_eq_map, List.filter_cons, List.filter_map]
    have hfun : ((fun i => decide (((x :: t).take (i + 1)).drop i = [c])) ∘ Nat.succ) =
        (fun i => decide ((t.take (i + 1)).drop i = [c])) := by
      funext i
      simp only [Function.comp, Nat.succ_eq_add_one, List.take_succ_cons, List.drop_succ_cons]
    rw [hfun, List.count_cons]
    by_cases hx : x = c
    · subst hx
      simp only [zero_add, List.take_succ_cons, List.take_zero, List.drop_zero, decide_True,
        if_true, List.length_cons, List.length_map, ih, beq_self_eq_true]
    · have : ¬ [x] = [c] := fun hh => hx (List.singleton_injective hh)
      simp only [zero_add, List.take_succ_cons, List.take_zero, List.drop_zero, this,
        decide_False, Bool.false_eq_true, if_false, List.length_map, ih, beq_iff_eq, hx,
        add_zero]

theorem count_Split (sep c : Nat) (hc : c ≠ sep) (s : GoString) :
    ((Split sep s).map (fun t => t.count c)).sum = s.count c := by
  induction s with
  | nil => rfl
  | cons x s ih =>
    by_cases hx : x = sep
    · have hxc : ¬ x = c := fun hh => hc (hh.symm.trans hx)
      simp only [Split, hx, if_true, List.map_cons, List.sum_cons, List.count_nil, zero_add, ih]
      rw [← hx, List.count_cons_of_ne (fun hh => hxc hh.symm)]
    · obtain ⟨h, r, hr⟩ := Split_ne_nil sep s
      rw [hr] at ih
      simp only [Split, hx, if_false, hr, List.map_cons, List.sum_cons] at ih ⊢
      rw [List.count_cons, List.count_cons, ← ih]
      omega

theorem runeCount_singleton (c : Nat) : RuneCountInString [c] = 1 := by
  rw [runeCount_eq, runes_cons]
  have h1 := decode_width_pos [c] (by simp)
  have h2 := decode_width_le [c]
  simp only [List.length_singleton] at h2
  have : (DecodeRuneInString [c]).2 = 1 := by omega
  rw [this]
  rfl

theorem sum_filter_ne_nil (f : GoString → Nat) (hf : f [] = 0) (l : List GoString) :
    ((l.filter (fun t => decide (t ≠ []))).map f).sum = (l.map f).sum := by
  induction l with
  | nil => rfl
  | cons t l ih =>
    by_cases ht : t = []
    · subst ht
      simp only [List.filter_cons, ne_eq, not_true_eq_false, decide_False, Bool.false_eq_true,
        if_false, ih, List.map_cons, List.sum_cons, hf, zero_add]
    · simp only [List.filter_cons, ne_eq, ht, not_false_eq_true, decide_True, if_true,
        List.map_cons, List.sum_cons, ih]

/-- C7, as stated, fails at the depths at which `gramDepth+1` reaches or
passes the largest `int`.  At `gramDepth = MaxInt` and the text "a" the sum
`gramDepth+1` wraps around to `MinInt`, the loop of `analyseToken` does not
run and the map returned is empty: the count of "a" is 0, where the claim
gives 1 (the gram "a" has 1 character, `1 <= gramDepth + 1`, and occurs once
in " a ").  At `gramDepth = MaxInt - 1` no map is returned. -/
theorem gram_counts_counterexample :
    (∀ b ∈ str "a", b < 0x80) ∧ (0 : Int) ≤ MaxInt ∧
    CreateOccurenceMap (str "a") MaxInt = some [] ∧
    mapGet [] (str "a") = 0 ∧
    gramCount (Split 0x20 (cleanText (str "a"))) MaxInt (str "a") = 1 ∧
    CreateOccurenceMap (str "a") (MaxInt - 1) = none := by
  decide

/-- C7, amended: for every text of ASCII characters and every `gramDepth`
with `0 <= gramDepth < MaxInt - 1`,
`CreateOccurenceMap` returns a map in which the count of every string `g` (0
for a string that is not a key) is: for `g` of 1 to `gramDepth + 1` characters
other than the single space, the number of positions at which `g` occurs in
`" " + t + " "`, summed over the non-empty tokens `t` of `cleanText(text)`
split on spaces; and 0 otherwise.  In particular a gram of one character `c`
is counted as often as `c` occurs in `cleanText(text)`; for "the cat sat",
"t" has count 3 and "c" has count 1. -/
theorem gram_counts (text : GoString) (gramDepth : Int) (hascii : ∀ b ∈ text, b < 0x80)
    (hd : 0 ≤ gramDepth) (hhi : gramDepth < MaxInt - 1) :
    ∃ m, CreateOccurenceMap text gramDepth = some m ∧
      (∀ g : GoString,
        mapGet m g = (gramCount (Split 0x20 (cleanText text)) gramDepth g : Int)) ∧
      (∀ c : Nat, c ≠ 0x20 → mapGet m [c] = ((cleanText text).count c : Int)) ∧
      (CreateOccurenceMap (str "the cat sat") 1).map
        (fun m => (mapGet m (str "t"), mapGet m (str "c"))) = some (3, 1) := by
  have htok : ∀ t ∈ Split 0x20 (cleanText text), ∀ b ∈ t, b < 0x80 := fun t ht b hb =>
    cleanText_ascii text hascii b (mem_of_mem_Split _ _ t ht b hb)
  obtain ⟨m, hm, hget⟩ := tokenLoop_ascii gramDepth (by unfold MinInt; omega) hhi _ htok []
  have hmain : ∀ g : GoString,
      mapGet m g = (gramCount (Split 0x20 (cleanText text)) gramDepth g : Int) := by
    intro g
    rw [hget g, gramCount_eq _ htok]
    simp [mapGet, mapFind]
  refine ⟨m, hm, hmain, ?_, by decide⟩
  intro c hc
  rw [hmain [c]]
  unfold gramCount
  have hsp : ([c] : GoString) ≠ space := by
    intro hh
    exact hc (List.singleton_injective hh)
  have hcond : 1 ≤ RuneCountInString [c] ∧ (RuneCountInString [c] : Int) ≤ gramDepth + 1 ∧
      ([c] : GoString) ≠ space := by
    rw [runeCount_singleton]
    exact ⟨le_refl _, by omega, hsp⟩
  rw [if_pos hcond]
  have hocc : (fun t : GoString => occurrences [c] (space ++ t ++ space)) =
      (fun t : GoString => t.count c) := by
    funext t
    rw [occurrences_singleton]
    simp only [space, List.count_append, List.count_singleton]
    have : ¬ (0x20 = c) := fun hh => hc hh.symm
    simp [this]
  rw [hocc, sum_filter_ne_nil _ (by rfl), count_Split 0x20 c hc]

/-- C7, amended, at the text "the cat sat" with depth 1. -/
theorem gram_counts_witness :
    (∀ b ∈ str "the cat sat", b < 0x80) ∧ (0 : Int) ≤ 1 ∧ (1 : Int) < MaxInt - 1 ∧
    ∃ m, CreateOccurenceMap (str "the cat sat") 1 = some m ∧
      (∀ g : GoString,
        mapGet m g = (gramCount (Split 0x20 (cleanText (str "the cat sat"))) 1 g : Int)) ∧
      (∀ c : Nat, c ≠ 0x20 → mapGet m [c] = ((cleanText (str "the cat sat")).count c : Int)) ∧
      (CreateOccurenceMap (str "the cat sat") 1).map
        (fun m => (mapGet m (str "t"), mapGet m (str "c"))) = some (3, 1) :=
  ⟨by decide, by decide, by decide,
   gram_counts (str "the cat sat") 1 (by decide) (by decide) (by decide)⟩

/-! ## Density and truncation of the rank map -/

theorem takeWhile_gt_eq (t : Int) (L : Nat) :
    (List.range L).reverse.takeWhile (fun j : Nat => decide ((j : Int) > t)) =
      (List.range (L - (t + 1).toNat)).map (fun j => L - 1 - j) := by
  induction L with
  | zero => simp
  | succ L ih =>
    rw [List.range_succ, List.reverse_append, List.reverse_singleton, List.singleton_append,
      List.takeWhile_cons]
    by_cases hL : (L : Int) > t
    · have hlen : L + 1 - (t + 1).toNat = (L - (t + 1).toNat) + 1 := by omega
      simp only [hL, decide_True, if_true, ih, hlen]
      rw [List.range_succ_eq_map, List.map_cons, List.map_map]
      congr 1
      apply List.map_congr_left
      intro j _
      simp only [Function.comp, Nat.succ_eq_add_one]
      omega
    · have hlen : L + 1 - (t + 1).toNat = 0 := by omega
      simp only [hL, decide_False, Bool.false_eq_true, if_false, hlen, List.range_zero,
        List.map_nil]

theorem rankMap_keys_nodup (maxSampleSize : Int) (input : GoMap) (h : (mapKeys input).Nodup) :
    (mapKeys (CreateRankLookupMap maxSampleSize input)).Nodup := by
  rw [CreateRankLookupMap_eq maxSampleSize input h]
  simp only [mapKeys, List.map_map]
  have hnd := sortTokens_keys_nodup input h
  refine (List.nodup_map_iff_inj_on (rankIndices_nodup _ _)).2 ?_
  intro a ha b hb hab
  simp only [Function.comp] at hab
  have ha1 := ((mem_rankIndices _ _ _).1 ha).1
  have hb1 := ((mem_rankIndices _ _ _).1 hb).1
  rw [← sortTokens_length] at ha1 hb1
  rw [List.getD_eq_getElem _ _ ha1, List.getD_eq_getElem _ _ hb1] at hab
  have ha2 : a < ((sortTokens (tokensOf input)).map Token.Key).length := by simpa using ha1
  have hb2 : b < ((sortTokens (tokensOf input)).map Token.Key).length := by simpa using hb1
  have h1 : ((sortTokens (tokensOf input)).map Token.Key)[a] =
      ((sortTokens (tokensOf input)).map Token.Key)[b] := by
    simpa using hab
  exact (List.Nodup.getElem_inj_iff hnd).1 h1

/-- The ranks of the rank map, in the order in which they are stored, are
1, 2, ... -/
theorem rank_values (maxSampleSize : Int) (input : GoMap) (h : (mapKeys input).Nodup) :
    (CreateRankLookupMap maxSampleSize input).map Prod.snd =
      (List.range (CreateRankLookupMap maxSampleSize input).length).map
        (fun j : Nat => (j : Int) + 1) := by
  rw [CreateRankLookupMap_eq maxSampleSize input h]
  unfold rankIndices
  rw [takeWhile_gt_eq]
  simp only [List.map_map, List.length_map, List.length_range]
  apply List.map_congr_left
  intro j hj
  have := List.mem_range.1 hj
  simp only [Function.comp]
  omega

/-- C11: for every occurrence map (distinct keys, any enumeration order) and
every setting of `maxSampleSize`, the ranks of the rank map are dense from 1:
with `m` entries the stored values are exactly 1, 2, ..., `m`, the keys are
distinct, and every rank from 1 to `m` is carried by exactly one gram. -/
theorem rank_dense (maxSampleSize : Int) (input : GoMap) (hnd : (mapKeys input).Nodup) :
    (CreateRankLookupMap maxSampleSize input).map Prod.snd =
      (List.range (CreateRankLookupMap maxSampleSize input).length).map
        (fun j : Nat => (j : Int) + 1) ∧
    (mapKeys (CreateRankLookupMap maxSampleSize input)).Nodup ∧
    ∀ v : Int, 1 ≤ v → v ≤ (CreateRankLookupMap maxSampleSize input).length →
      ∃! g, mapFind (CreateRankLookupMap maxSampleSize input) g = some v := by
  have hv := rank_values maxSampleSize input hnd
  have hk := rankMap_keys_nodup maxSampleSize input hnd
  refine ⟨hv, hk, ?_⟩
  generalize CreateRankLookupMap maxSampleSize input = r at hv hk
  have hval : ∀ (i : Nat) (hi : i < r.length), (r[i]).2 = (i : Int) + 1 := by
    intro i hi
    have hi2 : i < (r.map Prod.snd).length := by simpa using hi
    have h1 : (r.map Prod.snd)[i] = (r[i]).2 := by simp
    rw [← h1]
    simp only [hv]
    simp
  intro v hv1 hv2
  have hj : (v - 1).toNat < r.length := by omega
  refine ⟨(r[(v - 1).toNat]).1, ?_, ?_⟩
  · show mapFind r (r[(v - 1).toNat]).1 = some v
    rw [mapFind_eq_some_iff r hk]
    have hmem : r[(v - 1).toNat] ∈ r := List.getElem_mem hj
    have h2 := hval _ hj
    have : ((r[(v - 1).toNat]).1, v) = r[(v - 1).toNat] := by
      apply Prod.ext
      · rfl
      · simp only [h2]; omega
    rw [this]; exact hmem
  · intro g hg
    have hmem := mem_of_mapFind r g v hg
    obtain ⟨i, hi, hri⟩ := List.getElem_of_mem hmem
    have h2 := hval i hi
    rw [hri] at h2
    simp only at h2
    have hij : i = (v - 1).toNat := by omega
    subst hij
    rw [hri]

/-- C11 at the map a:3, b:2, c:1 with the default cap: the ranks are 1, 2, 3. -/
theorem rank_dense_witness :
    (mapKeys [(str "a", 3), (str "b", 2), (str "c", 1)]).Nodup ∧
    (CreateRankLookupMap 100000 [(str "a", 3), (str "b", 2), (str "c", 1)]).map Prod.snd =
      (List.range (CreateRankLookupMap 100000
        [(str "a", 3), (str "b", 2), (str "c", 1)]).length).map (fun j : Nat => (j : Int) + 1) :=
  ⟨by decide, (rank_dense 100000 [(str "a", 3), (str "b", 2), (str "c", 1)] (by decide)).1⟩

/-- C12: for every occurrence map (distinct keys, any enumeration order) and
every setting of `maxSampleSize`, every key of the rank map is a key of the
input, and a gram that is kept has an occurrence count greater than or equal
to that of every gram of the input that is dropped. -/
theorem rank_keeps_top (maxSampleSize : Int) (input : GoMap) (hnd : (mapKeys input).Nodup) :
    (∀ g ∈ mapKeys (CreateRankLookupMap maxSampleSize input), g ∈ mapKeys input) ∧
    ∀ g1 g2 : GoString, g1 ∈ mapKeys (CreateRankLookupMap maxSampleSize input) →
      g2 ∈ mapKeys input → g2 ∉ mapKeys (CreateRankLookupMap maxSampleSize input) →
      mapGet input g2 ≤ mapGet input g1 := by
  have hp := (sortTokens_perm input).map Token.Key
  rw [tokensOf_keys] at hp
  constructor
  · intro g hg
    obtain ⟨r, hr⟩ := (mapFind_isSome_iff _ g).2 hg
    obtain ⟨i, hi, _, hk, _⟩ := rank_entry maxSampleSize input hnd g r hr
    apply hp.mem_iff.1
    rw [← hk]
    exact List.mem_map_of_mem Token.Key (List.getElem_mem hi)
  · intro g1 g2 hg1 hg2 hdrop
    obtain ⟨r, hr⟩ := (mapFind_isSome_iff _ g1).2 hg1
    obtain ⟨i1, hi1, hv1, hk1, _⟩ := rank_entry maxSampleSize input hnd g1 r hr
    have hg2b : g2 ∈ (sortTokens (tokensOf input)).map Token.Key := hp.mem_iff.2 hg2
    obtain ⟨t, ht, hkt⟩ := List.mem_map.1 hg2b
    obtain ⟨i2, hi2, hti⟩ := List.getElem_of_mem ht
    have hnv : ¬ (i2 : Int) > (input.length : Int) - locMax maxSampleSize input.length := by
      intro hv2
      apply hdrop
      apply (mapFind_isSome_iff _ g2).1
      refine ⟨(input.length : Int) - (i2 : Int), ?_⟩
      rw [← hkt, ← hti]
      exact rank_of_index maxSampleSize input hnd i2 hi2 hv2
    have hlt : i2 < i1 := by omega
    have hs := (List.pairwise_iff_getElem.1 (sortTokens_sorted input)) i2 i1 hi2 hi1 hlt
    simp only [ByOccurrence] at hs
    have ho1 := token_occurrence input hnd _ (List.getElem_mem hi1)
    have ho2 := token_occurrence input hnd _ (List.getElem_mem hi2)
    rw [hk1] at ho1
    rw [hti, hkt] at ho2
    rw [ho1, ho2, ← hti]
    exact hs

/-- C12 at the map a:3, b:2, c:1 with cap 2: "a" is kept, "b" is dropped. -/
theorem rank_keeps_top_witness :
    (mapKeys [(str "a", 3), (str "b", 2), (str "c", 1)]).Nodup ∧
    mapGet [(str "a", 3), (str "b", 2), (str "c", 1)] (str "b") ≤
      mapGet [(str "a", 3), (str "b", 2), (str "c", 1)] (str "a") :=
  ⟨by decide, (rank_keeps_top 2 [(str "a", 3), (str "b", 2), (str "c", 1)] (by decide)).2
    (str "a") (str "b") (by decide) (by decide) (by decide)⟩

/-- C20: for every occurrence map with `k` distinct grams and every cap above
`k` (so for the default 100000 when `k < 100000`) nothing is dropped: the rank
map has the keys of the input, and `k` entries. -/
theorem cap_above_keeps_all (maxSampleSize : Int) (input : GoMap)
    (hnd : (mapKeys input).Nodup) (hcap : (input.length : Int) < maxSampleSize) :
    (∀ g : GoString, g ∈ mapKeys (CreateRankLookupMap maxSampleSize input) ↔ g ∈ mapKeys input) ∧
    (CreateRankLookupMap maxSampleSize input).length = input.length := by
  constructor
  · intro g
    constructor
    · intro hg
      obtain ⟨r, hr⟩ := (mapFind_isSome_iff _ g).2 hg
      obtain ⟨i, hi, _, hk, _⟩ := rank_entry maxSampleSize input hnd g r hr
      have hp := (sortTokens_perm input).map Token.Key
      rw [tokensOf_keys] at hp
      apply hp.mem_iff.1
      rw [← hk]
      exact List.mem_map_of_mem Token.Key (List.getElem_mem hi)
    · intro hg
      exact (mapFind_isSome_iff _ g).1 (rank_of_key_of_cap_gt maxSampleSize input hnd hcap g hg)
  · rw [rank_length maxSampleSize input hnd]
    unfold locMax
    have : ¬ maxSampleSize < 0 := by omega
    rw [if_neg this]
    omega

/-- C20 at the map a:3, b:2, c:1 with the default cap 100000. -/
theorem cap_above_keeps_all_witness :
    (mapKeys [(str "a", 3), (str "b", 2), (str "c", 1)]).Nodup ∧
    (([(str "a", 3), (str "b", 2), (str "c", 1)] : GoMap).length : Int) < 100000 ∧
    (CreateRankLookupMap 100000 [(str "a", 3), (str "b", 2), (str "c", 1)]).length =
      ([(str "a", 3), (str "b", 2), (str "c", 1)] : GoMap).length :=
  ⟨by decide, by decide,
   (cap_above_keeps_all 100000 [(str "a", 3), (str "b", 2), (str "c", 1)] (by decide)
      (by decide)).2⟩

/-! ## The steps of `cleanText` -/

theorem replaceLoop_nil (old new : GoString) (fuel : Nat) : replaceLoop old new fuel [] = [] := by
  cases fuel <;> rfl

theorem replace_single_map (a b : Nat) : ∀ (s : GoString) (fuel : Nat), s.length ≤ fuel →
    replaceLoop [a] [b] fuel s = s.map (fun c => if c = a then b else c) := by
  intro s
  induction s with
  | nil => intro fuel _; exact replaceLoop_nil _ _ _
  | cons c t ih =>
    intro fuel hf
    rcases fuel with _ | fuel
    · simp at hf
    · simp only [List.length_cons, Nat.add_le_add_iff_right] at hf
      by_cases hc : c = a
      · simp only [replaceLoop, HasPrefix, hc, decide_True, Bool.and_self, if_true,
          List.length_singleton, List.drop_succ_cons, List.drop_zero, List.singleton_append,
          List.map_cons, ih fuel hf]
      · simp only [replaceLoop, HasPrefix, hc, decide_False, Bool.false_and, Bool.false_eq_true,
          if_false, List.map_cons, ih fuel hf]

theorem replace_single_filter (a : Nat) : ∀ (s : GoString) (fuel : Nat), s.length ≤ fuel →
    replaceLoop [a] [] fuel s = s.filter (fun c => decide (c ≠ a)) := by
  intro s
  induction s with
  | nil => intro fuel _; exact replaceLoop_nil _ _ _
  | cons c t ih =>
    intro fuel hf
    rcases fuel with _ | fuel
    · simp at hf
    · simp only [List.length_cons, Nat.add_le_add_iff_right] at hf
      by_cases hc : c = a
      · simp only [replaceLoop, HasPrefix, hc, decide_True, Bool.and_self, if_true,
          List.length_singleton, List.drop_succ_cons, List.drop_zero, List.nil_append,
          List.filter_cons, ne_eq, not_true_eq_false, decide_False, Bool.false_eq_true,
          if_false, ih fuel hf]
      · simp only [replaceLoop, HasPrefix, hc, decide_False, Bool.false_and, Bool.false_eq_true,
          if_false, List.filter_cons, ne_eq, not_false_eq_true, decide_True, if_true,
          ih fuel hf]

theorem cleanSteps_eq : cleanSteps = punct.map (fun a => ([a], space)) ++
    digits.map (fun a => ([a], [])) ++ [([0x20, 0x20], space)] := rfl

theorem foldl_punct (P : List Nat) (h : (0x20 : Nat) ∉ P) : ∀ t : GoString,
    (P.map (fun a => (([a] : GoString), space))).foldl (fun t step => Replace t step.1 step.2) t =
      t.map (fun c => if c ∈ P then 0x20 else c) := by
  induction P with
  | nil => intro t; simp
  | cons a P ih =>
    intro t
    have ha : ¬ (0x20 : Nat) = a := fun hh => h (by rw [hh]; exact List.mem_cons_self _ _)
    have hP : (0x20 : Nat) ∉ P := fun hh => h (List.mem_cons_of_mem _ hh)
    rw [List.map_cons, List.foldl_cons, ih hP]
    simp only [Replace, space]
    rw [replace_single_map a 0x20 t t.length (le_refl _), List.map_map]
    apply List.map_congr_left
    intro c _
    simp only [Function.comp, List.mem_cons]
    by_cases hc : c = a
    · simp [hc]
    · by_cases hcP : c ∈ P
      · simp [hc, hcP]
      · simp [hc, hcP]

theorem foldl_digits (D : List Nat) : ∀ t : GoString,
    (D.map (fun a => (([a] : GoString), ([] : GoString)))).foldl
      (fun t step => Replace t step.1 step.2) t = t.filter (fun c => decide (c ∉ D)) := by
  induction D with
  | nil => intro t; simp
  | cons a D ih =>
    intro t
    rw [List.map_cons, List.foldl_cons, ih]
    simp only [Replace]
    rw [replace_single_filter a t t.length (le_refl _), List.filter_filter]
    apply List.filter_congr
    intro c _
    by_cases hc : c = a
    · simp [hc]
    · by_cases hcD : c ∈ D
      · simp [hc, hcD]
      · simp [hc, hcD]

/-- The function `cleanText` in three steps: the listed characters become
spaces, the digits are removed, and pairs of spaces are replaced by one. -/
theorem cleanText_eq (text : GoString) :
    cleanText text = collapse (dropDigits (toSpaces text)) := by
  unfold cleanText
  rw [cleanSteps_eq, List.foldl_append, List.foldl_append, foldl_punct punct (by decide),
    foldl_digits]
  rfl

theorem replaceLoop_pos (old new : GoString) (fuel c : Nat) (t : GoString)
    (h : HasPrefix (c :: t) old = true) :
    replaceLoop old new (fuel + 1) (c :: t) =
      new ++ replaceLoop old new fuel ((c :: t).drop old.length) := by
  rw [replaceLoop, if_pos h]

theorem replaceLoop_neg (old new : GoString) (fuel c : Nat) (t : GoString)
    (h : ¬ HasPrefix (c :: t) old = true) :
    replaceLoop old new (fuel + 1) (c :: t) = c :: replaceLoop old new fuel t := by
  rw [replaceLoop, if_neg h]

theorem hasPrefix_two_spaces (s : GoString) :
    HasPrefix s [0x20, 0x20] = true ↔ ∃ t, s = 0x20 :: 0x20 :: t := by
  rcases s with _ | ⟨a, _ | ⟨b, t⟩⟩
  · simp [HasPrefix]
  · simp [HasPrefix]
  · simp only [HasPrefix, Bool.and_true, Bool.and_eq_true, decide_eq_true_eq, List.cons.injEq,
      exists_and_left, exists_eq', and_true]

/-- A run of `m` spaces before another character is collapsed to
`ceil(m/2)` spaces. -/
theorem collapse_run (b : Nat) (hb : b ≠ 0x20) (rest : GoString)
    (hrest : ∀ fuel : Nat, rest.length ≤ fuel →
      replaceLoop [0x20, 0x20] space fuel rest = rest) :
    ∀ (m fuel : Nat), m + 1 + rest.length ≤ fuel →
      replaceLoop [0x20, 0x20] space fuel (List.replicate m 0x20 ++ b :: rest) =
        List.replicate ((m + 1) / 2) 0x20 ++ b :: rest := by
  intro m
  induction m using Nat.strong_induction_on with
  | _ m ih =>
    intro fuel hf
    rcases fuel with _ | fuel
    · omega
    rcases m with _ | _ | m
    · have hp : ¬ HasPrefix (b :: rest) [0x20, 0x20] = true := by
        rw [hasPrefix_two_spaces]
        rintro ⟨t, ht⟩
        exact hb (List.cons.inj ht).1
      show replaceLoop [0x20, 0x20] space (fuel + 1) (b :: rest) = b :: rest
      rw [replaceLoop_neg _ _ _ _ _ hp, hrest fuel (by omega)]
    · have hp : ¬ HasPrefix (0x20 :: b :: rest) [0x20, 0x20] = true := by
        rw [hasPrefix_two_spaces]
        rintro ⟨t, ht⟩
        exact hb (List.cons.inj (List.cons.inj ht).2).1
      have hp2 : replaceLoop [0x20, 0x20] space fuel (b :: rest) = b :: rest :=
        ih 0 (by omega) fuel (by omega)
      show replaceLoop [0x20, 0x20] space (fuel + 1) (0x20 :: b :: rest) = 0x20 :: b :: rest
      rw [replaceLoop_neg _ _ _ _ _ hp, hp2]
    · have hp : HasPrefix (0x20 :: 0x20 :: (List.replicate m 0x20 ++ b :: rest))
          [0x20, 0x20] = true := by
        rw [hasPrefix_two_spaces]
        exact ⟨_, rfl⟩
      have hih := ih m (by omega) fuel (by omega)
      have hdiv : (m + 1 + 1 + 1) / 2 = (m + 1) / 2 + 1 := by omega
      show replaceLoop [0x20, 0x20] space (fuel + 1)
          (0x20 :: 0x20 :: (List.replicate m 0x20 ++ b :: rest)) = _
      rw [replaceLoop_pos _ _ _ _ _ hp, hdiv]
      show space ++ replaceLoop [0x20, 0x20] space fuel (List.replicate m 0x20 ++ b :: rest) = _
      rw [hih]
      rfl

/-- Replacing pairs of spaces deletes spaces only. -/
theorem collapse_filter : ∀ (fuel : Nat) (s : GoString),
    (replaceLoop [0x20, 0x20] space fuel s).filter (fun c => decide (c ≠ 0x20)) =
      s.filter (fun c => decide (c ≠ 0x20)) := by
  intro fuel
  induction fuel with
  | zero => intro s; rfl
  | succ fuel ih =>
    intro s
    rcases s with _ | ⟨c, t⟩
    · rfl
    · by_cases hp : HasPrefix (c :: t) [0x20, 0x20] = true
      · obtain ⟨u, hu⟩ := (hasPrefix_two_spaces _).1 hp
        rw [replaceLoop_pos _ _ _ _ _ hp, hu]
        show (space ++ replaceLoop [0x20, 0x20] space fuel u).filter _ = _
        rw [List.filter_append, ih u]
        rfl
      · rw [replaceLoop_neg _ _ _ _ _ hp, List.filter_cons, List.filter_cons, ih t]

/-- Replacing pairs of spaces adds no character. -/
theorem collapse_mem : ∀ (fuel : Nat) (s : GoString),
    ∀ b ∈ replaceLoop [0x20, 0x20] space fuel s, b ∈ s := by
  intro fuel
  induction fuel with
  | zero => intro s b hb; exact hb
  | succ fuel ih =>
    intro s b hb
    rcases s with _ | ⟨c, t⟩
    · exact hb
    · by_cases hp : HasPrefix (c :: t) [0x20, 0x20] = true
      · obtain ⟨u, hu⟩ := (hasPrefix_two_spaces _).1 hp
        rw [replaceLoop_pos _ _ _ _ _ hp, hu] at hb
        rw [hu]
        change b ∈ space ++ replaceLoop [0x20, 0x20] space fuel u at hb
        rcases List.mem_append.1 hb with h | h
        · simp only [space, List.mem_singleton] at h
          rw [h]; exact List.mem_cons_self _ _
        · exact List.mem_cons_of_mem _ (List.mem_cons_of_mem _ (ih u b h))
      · rw [replaceLoop_neg _ _ _ _ _ hp] at hb
        rcases List.mem_cons.1 hb with h | h
        · rw [h]; exact List.mem_cons_self _ _
        · exact List.mem_cons_of_mem _ (ih t b h)

/-- A text without two adjacent spaces is left as it is. -/
theorem collapse_id : ∀ (fuel : Nat) (s : GoString), adjacentSpaces s = false →
    replaceLoop [0x20, 0x20] space fuel s = s := by
  intro fuel
  induction fuel with
  | zero => intro s _; rfl
  | succ fuel ih =>
    intro s hs
    rcases s with _ | ⟨c, t⟩
    · rfl
    · have hp : ¬ HasPrefix (c :: t) [0x20, 0x20] = true := by
        rw [hasPrefix_two_spaces]
        rintro ⟨u, hu⟩
        rw [hu] at hs
        simp [adjacentSpaces] at hs
      have ht : adjacentSpaces t = false := by
        rcases t with _ | ⟨d, t⟩
        · rfl
        · simp only [adjacentSpaces, Bool.or_eq_false_iff] at hs
          exact hs.2
      rw [replaceLoop_neg _ _ _ _ _ hp, ih t ht]

theorem toSpaces_id (s : GoString) (h : ∀ c ∈ s, c ∉ punct) : toSpaces s = s := by
  unfold toSpaces
  conv_rhs => rw [← List.map_id s]
  apply List.map_congr_left
  intro c hc
  simp only [h c hc, if_false, id]

theorem dropDigits_id (s : GoString) (h : ∀ c ∈ s, c ∉ digits) : dropDigits s = s := by
  unfold dropDigits
  apply List.filter_eq_self.2
  intro c hc
  simp only [h c hc, not_false_eq_true, decide_True]

/-- The result of `cleanText` has no digit and none of the listed characters. -/
theorem cleanText_clean (text : GoString) :
    ∀ b ∈ cleanText text, b ∉ digits ∧ b ∉ punct := by
  intro b hb
  rw [cleanText_eq] at hb
  have h1 : b ∈ dropDigits (toSpaces text) := collapse_mem _ _ b hb
  unfold dropDigits at h1
  obtain ⟨h2, h3⟩ := List.mem_filter.1 h1
  simp only [decide_eq_true_eq] at h3
  refine ⟨h3, ?_⟩
  unfold toSpaces at h2
  obtain ⟨c, _, hcb⟩ := List.mem_map.1 h2
  by_cases hc : c ∈ punct
  · rw [if_pos hc] at hcb
    rw [← hcb]
    decide
  · rw [if_neg hc] at hcb
    rw [← hcb]
    exact hc

/-- C13: for every `m >= 0`, `cleanText` turns "a", `m` spaces, "b" into "a",
`ceil(m/2)` spaces, "b": two spaces become one, three spaces become two
("a  b" gives "a b"; "a   b" gives "a  b", not "a b"). -/
theorem cleanText_spaces (m : Nat) :
    cleanText (0x61 :: (List.replicate m 0x20 ++ [0x62])) =
      0x61 :: (List.replicate ((m + 1) / 2) 0x20 ++ [0x62]) ∧
    cleanText (str "a  b") = str "a b" ∧
    cleanText (str "a   b") = str "a  b" ∧
    cleanText (str "a   b") ≠ str "a b" := by
  refine ⟨?_, by decide, by decide, by decide⟩
  have hmem : ∀ c ∈ (0x61 :: (List.replicate m 0x20 ++ [0x62]) : GoString),
      c = 0x61 ∨ c = 0x20 ∨ c = 0x62 := by
    intro c hc
    simp only [List.mem_cons, List.mem_append, List.mem_replicate, List.mem_singleton,
      List.not_mem_nil, or_false] at hc
    rcases hc with h | ⟨_, h⟩ | h
    · exact Or.inl h
    · exact Or.inr (Or.inl h)
    · exact Or.inr (Or.inr h)
  rw [cleanText_eq, toSpaces_id, dropDigits_id]
  · unfold collapse Replace
    have hp : ¬ HasPrefix (0x61 :: (List.replicate m 0x20 ++ [0x62])) [0x20, 0x20] = true := by
      rw [hasPrefix_two_spaces]
      rintro ⟨t, ht⟩
      have := (List.cons.inj ht).1
      omega
    have hlen : (0x61 :: (List.replicate m 0x20 ++ [0x62]) : GoString).length = (m + 1) + 1 := by
      simp
    rw [hlen, replaceLoop_neg _ _ _ _ _ hp,
      collapse_run 0x62 (by decide) [] (fun fuel _ => replaceLoop_nil _ _ fuel) m (m + 1)
        (by simp)]
  · intro c hc
    rcases hmem c hc with h | h | h <;> rw [h] <;> decide
  · intro c hc
    rcases hmem c hc with h | h | h <;> rw [h] <;> decide

/-- C14: for every text, `cleanText` alters no characters other than the
listed ones: without its spaces the result is the input without its spaces,
its ASCII digits and its 15 listed characters, in the same order; the result
has no digit and none of the listed characters ("go1.2" gives "go "). -/
theorem cleanText_keeps_others (text : GoString) :
    (cleanText text).filter (fun c => decide (c ≠ 0x20)) =
      text.filter (fun c => decide (c ≠ 0x20 ∧ c ∉ digits ∧ c ∉ punct)) ∧
    (∀ b ∈ cleanText text, b ∉ digits ∧ b ∉ punct) ∧
    cleanText (str "go1.2") = str "go " := by
  refine ⟨?_, cleanText_clean text, by decide⟩
  rw [cleanText_eq]
  unfold collapse Replace
  rw [collapse_filter]
  unfold dropDigits toSpaces
  rw [List.filter_filter, List.filter_map]
  have hpred : ∀ c ∈ text,
      ((fun a => decide (a ≠ 0x20) && decide (a ∉ digits)) ∘
        (fun c => if c ∈ punct then 0x20 else c)) c =
      decide (c ≠ 0x20 ∧ c ∉ digits ∧ c ∉ punct) := by
    intro c _
    simp only [Function.comp]
    by_cases hc : c ∈ punct
    · simp [hc]
    · simp [hc]
  rw [List.filter_congr hpred]
  conv_rhs => rw [← List.map_id (text.filter _)]
  apply List.map_congr_left
  intro c hc
  have := (List.mem_filter.1 hc).2
  simp only [decide_eq_true_eq] at this
  simp only [this.2.2, if_false, id]

/-- C15: for every text whose normalized form has no two adjacent spaces,
normalizing twice gives the same as normalizing once. -/
theorem cleanText_idempotent (text : GoString) (h : adjacentSpaces (cleanText text) = false) :
    cleanText (cleanText text) = cleanText text := by
  rw [cleanText_eq (cleanText text),
    toSpaces_id _ (fun c hc => (cleanText_clean text c hc).2),
    dropDigits_id _ (fun c hc => (cleanText_clean text c hc).1)]
  exact collapse_id _ _ h

/-- C15 at the text "a  b", whose normalized form "a b" has no two adjacent
spaces. -/
theorem cleanText_idempotent_witness :
    adjacentSpaces (cleanText (str "a  b")) = false ∧
    cleanText (cleanText (str "a  b")) = cleanText (str "a  b") :=
  ⟨by decide, cleanText_idempotent (str "a  b") (by decide)⟩

theorem Split_all_sep (sep : Nat) (s : GoString) (h : ∀ b ∈ s, b = sep) :
    ∀ t ∈ Split sep s, t = [] := by
  induction s with
  | nil =>
    intro t ht
    simpa [Split] using ht
  | cons c s ih =>
    intro t ht
    have hc : c = sep := h c (List.mem_cons_self _ _)
    simp only [Split, hc, if_true, List.mem_cons] at ht
    rcases ht with h1 | h1
    · exact h1
    · exact ih (fun b hb => h b (List.mem_cons_of_mem _ hb)) t h1

theorem tokenLoop_empty (gramDepth : Int) : ∀ (tokens : List GoString),
    (∀ t ∈ tokens, t = []) → ∀ m : GoMap, tokenLoop gramDepth tokens m = some m := by
  intro tokens
  induction tokens with
  | nil => intro _ m; rfl
  | cons t tokens ih =>
    intro h m
    have ht : t = [] := h t (List.mem_cons_self _ _)
    subst ht
    simp only [tokenLoop, analyseToken, List.length_nil, if_true]
    exact ih (fun u hu => h u (List.mem_cons_of_mem _ hu)) m

theorem CreateRankLookupMap_nil (maxSampleSize : Int) :
    CreateRankLookupMap maxSampleSize [] = [] := rfl

/-- C16: for every text made up of spaces, ASCII digits and the listed
characters only (the empty text among them), every name, every depth and every
setting of `maxSampleSize`, `CreateOccurenceMap` returns the empty map, and
`AnalyzeWithNDepth` and `Analyze` return the profile with the given name and
an empty rank map. -/
theorem empty_profile (text name : GoString) (nDepth maxSampleSize DEFAULT_NDEPTH : Int)
    (h : ∀ b ∈ text, b = 0x20 ∨ b ∈ digits ∨ b ∈ punct) :
    CreateOccurenceMap text nDepth = some [] ∧
    AnalyzeWithNDepth maxSampleSize text name nDepth = some { Name := name, Profile := [] } ∧
    Analyze DEFAULT_NDEPTH maxSampleSize text name = some { Name := name, Profile := [] } := by
  have hsp : ∀ b ∈ cleanText text, b = 0x20 := by
    intro b hb
    have hclean := cleanText_clean text b hb
    rw [cleanText_eq] at hb
    have h1 : b ∈ dropDigits (toSpaces text) := collapse_mem _ _ b hb
    unfold dropDigits at h1
    have h2 := (List.mem_filter.1 h1).1
    unfold toSpaces at h2
    obtain ⟨c, hc, hcb⟩ := List.mem_map.1 h2
    by_cases hp : c ∈ punct
    · rw [if_pos hp] at hcb
      exact hcb.symm
    · rw [if_neg hp] at hcb
      rcases h c hc with h3 | h3 | h3
      · rw [← hcb]; exact h3
      · rw [hcb] at h3; exact absurd h3 hclean.1
      · exact absurd h3 hp
  have hocc : ∀ d : Int, CreateOccurenceMap text d = some [] := fun d =>
    tokenLoop_empty d _ (Split_all_sep 0x20 _ hsp) []
  refine ⟨hocc nDepth, ?_, ?_⟩
  · unfold AnalyzeWithNDepth
    rw [hocc nDepth]
    rfl
  · unfold Analyze AnalyzeWithNDepth
    rw [hocc DEFAULT_NDEPTH]
    rfl

/-- C16 at the empty text and at the text "1, 2!" with the name "x". -/
theorem empty_profile_witness :
    (∀ b ∈ str "1, 2!", b = 0x20 ∨ b ∈ digits ∨ b ∈ punct) ∧
    CreateOccurenceMap (str "1, 2!") 5 = some [] ∧
    Analyze 5 100000 (str "") (str "x") = some { Name := str "x", Profile := [] } :=
  ⟨by decide, (empty_profile (str "1, 2!") (str "x") 5 100000 5 (by decide)).1,
   (empty_profile (str "") (str "x") 5 100000 5 (by decide)).2.2⟩

/-! ## The positions at which grams are taken -/

/-- The keys that the loop of `generateNthGrams` adds are the slices at the
positions it visits. -/
theorem gramLoop_keys (text : GoString) (n : Int) (hn : 1 ≤ n) :
    ∀ (ps : List Nat) (m : GoMap),
      ∃ m2, gramLoop text n ps m = some m2 ∧ ∀ k ∈ mapKeys m2, k ∈ mapKeys m ∨
        ∃ p ∈ ps, ¬ gramBreak text p n ∧ k = gramSlice text p n := by
  intro ps
  induction ps with
  | nil => intro m; exact ⟨m, rfl, fun k hk => Or.inl hk⟩
  | cons p ps ih =>
    intro m
    by_cases hb : gramBreak text p n
    · refine ⟨m, ?_, fun k hk => Or.inl hk⟩
      unfold gramBreak at hb
      simp only [gramLoop]
      rw [if_pos hb]
    · have hs := gram_spec text p n hn hb
      have hnot : ¬ CalByteOffsetToRunOffset text ((p : Int) + n) <
          CalByteOffsetToRunOffset text p := by omega
      have hb2 := hb
      unfold gramBreak at hb2
      simp only [gramLoop]
      rw [if_neg hb2, if_neg hnot]
      by_cases hsp : (text.take (CalByteOffsetToRunOffset text ((p : Int) + n))).drop
          (CalByteOffsetToRunOffset text p) = space
      · rw [if_pos hsp]
        obtain ⟨m2, hm2, hk2⟩ := ih m
        refine ⟨m2, hm2, fun k hk => ?_⟩
        rcases hk2 k hk with h | ⟨q, hq, hqb, hqk⟩
        · exact Or.inl h
        · exact Or.inr ⟨q, List.mem_cons_of_mem _ hq, hqb, hqk⟩
      · rw [if_neg hsp]
        obtain ⟨m2, hm2, hk2⟩ := ih (mapIncr m ((text.take
          (CalByteOffsetToRunOffset text ((p : Int) + n))).drop (CalByteOffsetToRunOffset text p)))
        refine ⟨m2, hm2, fun k hk => ?_⟩
        rcases hk2 k hk with h | ⟨q, hq, hqb, hqk⟩
        · rcases mem_mapKeys_mapStore _ _ _ _ h with h3 | h3
          · exact Or.inr ⟨p, List.mem_cons_self _ _, hb, h3⟩
          · exact Or.inl h3
        · exact Or.inr ⟨q, List.mem_cons_of_mem _ hq, hqb, hqk⟩

theorem mapTotal_mapStore (m : GoMap) (k : GoString) (v : Int) :
    mapTotal (mapStore m k v) = mapTotal m + v - mapGet m k := by
  induction m with
  | nil => simp [mapStore, mapTotal, mapGet, mapFind]
  | cons e m ih =>
    obtain ⟨k2, v2⟩ := e
    by_cases hk : k2 = k
    · simp only [mapStore, hk, if_true, mapTotal, List.map_cons, List.sum_cons, mapGet, mapFind]
      omega
    · have hg : mapGet ((k2, v2) :: m) k = mapGet m k := by
        simp only [mapGet, mapFind, hk, if_false]
      rw [hg]
      simp only [mapStore, hk, if_false, mapTotal, List.map_cons, List.sum_cons] at ih ⊢
      rw [ih]
      omega

theorem mapTotal_mapIncr (m : GoMap) (k : GoString) : mapTotal (mapIncr m k) = mapTotal m + 1 := by
  unfold mapIncr
  rw [mapTotal_mapStore]
  omega

/-- On a padded token of ASCII characters and for `k >= 2` every position
visited by the loop of `generateNthGrams` adds one to the counts. -/
theorem gramLoop_ascii_total (text : GoString) (h : ∀ b ∈ text, b < 0x80) (k : Nat)
    (hk : 2 ≤ k) : ∀ (ps : List Nat), (∀ p ∈ ps, p + k ≤ text.length) → ∀ m : GoMap,
      ∃ m2, gramLoop text (k : Int) ps m = some m2 ∧
        mapTotal m2 = mapTotal m + (ps.length : Int) := by
  intro ps
  induction ps with
  | nil => intro _ m; exact ⟨m, rfl, by simp⟩
  | cons p ps ih =>
    intro hps m
    have hp : p + k ≤ text.length := hps p (List.mem_cons_self _ _)
    have h1 : CalByteOffsetToRunOffset text (p : Int) = p := by
      rw [cal_ascii text h p, if_pos (by omega)]
    have h2 : CalByteOffsetToRunOffset text ((p : Int) + (k : Int)) = p + k := by
      have : (p : Int) + (k : Int) = ((p + k : Nat) : Int) := by push_cast; rfl
      rw [this, cal_ascii text h (p + k)]
      split_ifs <;> omega
    have hb : ¬ (p = p + k ∨ p + k > text.length ∨ p ≥ text.length) := by omega
    have hlt : ¬ (p + k < p) := by omega
    have hsp : ¬ (text.take (p + k)).drop p = space := by
      intro hh
      have := congrArg List.length hh
      simp only [List.length_drop, List.length_take, space, List.length_singleton] at this
      omega
    simp only [gramLoop, h1, h2]
    rw [if_neg hb, if_neg hlt, if_neg hsp]
    obtain ⟨m2, hm2, ht⟩ := ih (fun q hq => hps q (List.mem_cons_of_mem _ hq))
      (mapIncr m ((text.take (p + k)).drop p))
    refine ⟨m2, hm2, ?_⟩
    rw [ht, mapTotal_mapIncr, List.length_cons]
    push_cast
    ring

/-- C17, as stated, fails: for the token "ab", padded to 4 code points, and
`n = 2` the function adds three grams, " a", "ab" and "b ", the last one at
the rune position 2 = runeLen - n; the counts sum to 3, not to
max(0, runeLen - n) = 2. -/
theorem gram_positions_counterexample :
    RuneCountInString (padToken (str "ab")) = 4 ∧
    generateNthGrams [] (str "ab") 2 =
      some [(str " a", 1), (str "ab", 1), (str "b ", 1)] ∧
    gramSlice (padToken (str "ab")) 2 2 = str "b " ∧
    ¬ (mapTotal [(str " a", 1), (str "ab", 1), (str "b ", 1)] = max 0 (4 - 2)) := by
  decide

/-- C17, amended: for every non-empty token and every gram length `n >= 1`,
with `runeLen` the number of code points of the (possibly padded) token,
`generateNthGrams` takes grams only at starting rune positions `p` with
`0 <= p < runeLen - (n - 1)`, that is `p <= runeLen - n`; so for a token of
ASCII characters and `n >= 2` the counts it adds sum to
`max(0, runeLen - n + 1)` (three grams for the token "ab" and `n = 2`). -/
theorem gram_positions (token : GoString) (hne : token ≠ []) (n : Nat) (hn : 1 ≤ n)
    (m : GoMap) :
    (∃ m2, generateNthGrams m token (n : Int) = some m2 ∧
      ∀ k ∈ mapKeys m2, k ∈ mapKeys m ∨ ∃ p : Nat,
        (p : Int) < (RuneCountInString (padToken token) : Int) - ((n : Int) - 1) ∧
        k = gramSlice (padToken token) p n) ∧
    ((∀ b ∈ token, b < 0x80) → 2 ≤ n →
      ∃ m2, generateNthGrams m token (n : Int) = some m2 ∧
        mapTotal m2 = mapTotal m + ((RuneCountInString (padToken token) + 1 - n : Nat) : Int)) ∧
    generateNthGrams [] (str "ab") 2 =
      some [(str " a", 1), (str "ab", 1), (str "b ", 1)] := by
  refine ⟨?_, ?_, by decide⟩
  · obtain ⟨m2, hm2, hk⟩ := gramLoop_keys (padToken token) (n : Int) (by omega)
      (List.range ((RuneCountInString (padToken token) : Int) - ((n : Int) - 1)).toNat) m
    refine ⟨m2, hm2, fun k hkm => ?_⟩
    rcases hk k hkm with h | ⟨p, hp, _, hpk⟩
    · exact Or.inl h
    · refine Or.inr ⟨p, ?_, hpk⟩
      have := List.mem_range.1 hp
      omega
  · intro hascii hn2
    have hT : ∀ b ∈ space ++ token ++ space, b < 0x80 := by
      intro b hb
      simp only [space, List.mem_append, List.mem_singleton] at hb
      rcases hb with (hb | hb) | hb
      · omega
      · exact hascii b hb
      · omega
    unfold generateNthGrams
    simp only [padToken_ascii token hne hascii, runeCount_ascii _ hT]
    have hU : (((space ++ token ++ space).length : Int) - ((n : Int) - 1)).toNat =
        (space ++ token ++ space).length + 1 - n := by omega
    rw [hU]
    obtain ⟨m2, hm2, ht⟩ := gramLoop_ascii_total (space ++ token ++ space) hT n hn2
      (List.range ((space ++ token ++ space).length + 1 - n))
      (fun p hp => by have := List.mem_range.1 hp; omega) m
    refine ⟨m2, hm2, ?_⟩
    rw [ht, List.length_range]

/-- C17, amended, at the token "ab" with `n = 2` and the empty map. -/
theorem gram_positions_witness :
    str "ab" ≠ [] ∧ 1 ≤ 2 ∧
    ∃ m2, generateNthGrams [] (str "ab") ((2 : Nat) : Int) = some m2 ∧
      mapTotal m2 = mapTotal [] + ((RuneCountInString (padToken (str "ab")) + 1 - 2 : Nat) : Int) :=
  ⟨by decide, by decide,
   (gram_positions (str "ab") (by decide) 2 (by decide) []).2.1 (by decide) (by decide)⟩

/-! ## The padding of a token -/

/-- A string that begins with an ASCII character has its second rune at byte
offset 1, or is that one character. -/
theorem cal_one_of_ascii_head (a : Nat) (t : GoString) (ha : a < 0x80) :
    CalByteOffsetToRunOffset (a :: t) 1 = 1 := by
  have hrunes : runes (a :: t) = [a] :: runes t := by
    rw [runes_cons, decode_ascii a t ha]
    rfl
  have hcount : RuneCountInString (a :: t) = RuneCountInString t + 1 := by
    rw [runeCount_eq, runeCount_eq, hrunes, List.length_cons]
  unfold CalByteOffsetToRunOffset
  rw [hcount]
  by_cases ht : t = []
  · subst ht
    have h1 : ((1 : Int) < 0 ∨ ((RuneCountInString [] + 1 : Nat) : Int) ≤ 1) := by
      right
      show ((0 + 1 : Nat) : Int) ≤ 1
      omega
    rw [if_pos h1]
    rfl
  · have hpos : 1 ≤ RuneCountInString t := by
      rw [runeCount_eq]
      rcases t with _ | ⟨c, u⟩
      · exact absurd rfl ht
      · rw [runes_cons]; simp
    have hlen : 1 ≤ t.length := by
      rcases t with _ | ⟨c, u⟩
      · exact absurd rfl ht
      · simp
    have h1 : ¬ ((1 : Int) < 0 ∨ ((RuneCountInString t + 1 : Nat) : Int) ≤ 1) := by omega
    have h0 : ¬ ((1 : Int) = 0) := by omega
    rw [if_neg h1, if_neg h0]
    have hrange : List.range' (1 : Int).toNat ((a :: t).length - (1 : Int).toNat) =
        1 :: List.range' 2 (t.length - 1) := by
      have h2 : (1 : Int).toNat = 1 := rfl
      have h3 : (a :: t).length - 1 = (t.length - 1) + 1 := by
        simp only [List.length_cons]; omega
      rw [h2, h3, List.range'_succ]
    rw [hrange, List.find?_cons]
    have hp : (decide ((DecodeLastRuneInString ((a :: t).take 1)).1 ≠ RuneError) &&
        decide ((RuneCountInString ((a :: t).take 1) : Int) = 1)) = true := by
      have htake : (a :: t).take 1 = [a] := rfl
      rw [htake]
      simp only [Bool.and_eq_true, decide_eq_true_eq]
      refine ⟨decodeLast_ascii [a] (by simp) (fun b hb => ?_), ?_⟩
      · simp only [List.mem_singleton] at hb
        omega
      · rw [runeCount_singleton]; rfl
    simp only [hp]

/-- A string that begins with a rune of more than one byte does not have its
second rune at byte offset 1. -/
theorem cal_one_of_wide_head (token : GoString) (hw : 2 ≤ (DecodeRuneInString token).2) :
    CalByteOffsetToRunOffset token 1 ≠ 1 := by
  have hle := decode_width_le token
  rcases cal_cases token 1 (by omega) with h | h
  · rw [h]; omega
  · rw [h]
    rcases token with _ | ⟨c, t⟩
    · simp [DecodeRuneInString] at hw
    · unfold runeOffset
      rw [runes_cons]
      have h1 : (1 : Int).toNat = 1 := rfl
      simp only [h1, List.take_succ_cons, List.take_zero, List.flatten_cons, List.flatten_nil,
        List.append_nil, List.length_take]
      omega

/-- C18, as stated, fails for a token whose first code point is not validly
encoded: the token with the bytes FF 61 begins with a rune of one byte (the
invalid byte FF, of width 1) and is not padded, while the token FF alone,
which begins with the same rune, is padded. -/
theorem padding_counterexample :
    ¬ (padToken [0xFF, 0x61] = space ++ [0xFF, 0x61] ++ space ↔
        (DecodeRuneInString [0xFF, 0x61]).2 = 1) ∧
    DecodeRuneInString [0xFF, 0x61] = DecodeRuneInString [0xFF] ∧
    padToken [0xFF, 0x61] = [0xFF, 0x61] ∧
    padToken [0xFF] = space ++ [0xFF] ++ space := by
  decide

/-- C18, amended: for every non-empty token whose first code point is validly
encoded (the bytes of its first rune are one whole UTF-8 sequence; the rest of
the token may be any bytes), `generateNthGrams` pads the token with one space
on each side if and only if the first code point of the token is encoded in a
single byte; otherwise the grams are taken from the unpadded token (for
`n = 2` the token "eté" yields " e", "et", "té", "é ", the token "été" yields
"ét" and "té" only). -/
theorem padding_iff (token : GoString) (hne : token ≠ [])
    (hfirst : Whole (token.take (DecodeRuneInString token).2)) :
    (padToken token = space ++ token ++ space ↔ (DecodeRuneInString token).2 = 1) ∧
    ((DecodeRuneInString token).2 ≠ 1 → padToken token = token) ∧
    generateNthGrams [] (str "eté") 2 =
      some [(str " e", 1), (str "et", 1), (str "té", 1), (str "é ", 1)] ∧
    generateNthGrams [] (str "été") 2 = some [(str "ét", 1), (str "té", 1)] := by
  have hpos := decode_width_pos token hne
  have hwide : (DecodeRuneInString token).2 ≠ 1 → padToken token = token := by
    intro hw
    have h2 := cal_one_of_wide_head token (by omega)
    unfold padToken
    simp only [if_pos h2, List.nil_append, List.append_nil]
  have hone : (DecodeRuneInString token).2 = 1 → padToken token = space ++ token ++ space := by
    intro hw
    rcases token with _ | ⟨a, t⟩
    · exact absurd rfl hne
    · have hwhole : Whole ((a :: t).take (DecodeRuneInString (a :: t)).2) := hfirst
      rw [hw] at hwhole
      have hsh : (a :: t).take 1 = [a] := rfl
      rw [hsh] at hwhole
      have ha : a < 0x80 := by
        rcases hwhole.cases with ⟨b, hb, hlt⟩ | ⟨_, _, _, _, hb, _⟩ | ⟨_, _, _, _, _, hb, _⟩ |
          ⟨_, _, _, _, _, _, hb, _⟩
        · have : a = b := List.singleton_injective hb
          omega
        · simp at hb
        · simp at hb
        · simp at hb
      have h1 := cal_one_of_ascii_head a t ha
      unfold padToken
      simp only [h1, ne_eq, not_true_eq_false, if_false]
  refine ⟨⟨?_, hone⟩, hwide, by decide, by decide⟩
  intro hpad
  by_contra hw
  have := congrArg List.length (hwide hw ▸ hpad)
  simp only [space, List.length_append, List.length_singleton] at this
  omega

/-- C18, amended, at the tokens "eté" and "été", and at the tokens 61 FF and
C3 A9 FF, which are not valid UTF-8 after their first code point. -/
theorem padding_iff_witness :
    (padToken (str "eté") = space ++ str "eté" ++ space ↔
      (DecodeRuneInString (str "eté")).2 = 1) ∧
    padToken (str "été") = str "été" ∧
    (padToken [0x61, 0xFF] = space ++ [0x61, 0xFF] ++ space ↔
      (DecodeRuneInString [0x61, 0xFF]).2 = 1) ∧
    padToken [0xC3, 0xA9, 0xFF] = [0xC3, 0xA9, 0xFF] :=
  ⟨(padding_iff (str "eté") (by decide) (by unfold Whole; decide)).1,
   (padding_iff (str "été") (by decide) (by unfold Whole; decide)).2.1 (by decide),
   (padding_iff [0x61, 0xFF] (by decide) (by unfold Whole; decide)).1,
   (padding_iff [0xC3, 0xA9, 0xFF] (by decide) (by unfold Whole; decide)).2.1 (by decide)⟩

end Langdet
